import Mathlib

/-!
Verification development for the money-muling detection engine
(`src/lib/detectionEngine.ts`): CSV ingestion, transaction-graph
construction, the cycle / smurfing / shell-chain detectors, the scoring
aggregator with ring assignment, and the false-positive filter.

Modelling conventions:
* JavaScript `number` is modelled as `Rat` (exact arithmetic); all score
  contributions in the engine are small integers, so no rounding of the
  binary floating-point representation is observable on them.
* JS `Map` (which preserves insertion order and updates keys in place) is
  modelled as an association list `List (String × α)` with `alGet` /
  `alSet` / `alUpdate` below.
* JS `Set` is modelled as a duplicate-free list in insertion order.
* `Date` timestamps are milliseconds since the epoch, as `Int`.
-/

namespace MMD

/-- Transaction record, from the `Transaction` interface. -/
structure Transaction where
  transaction_id : String
  sender_id : String
  receiver_id : String
  amount : Rat
  timestamp : Int
deriving Repr, DecidableEq, Inhabited

/-- Suspicious account record, from the `SuspiciousAccount` interface
(`ring_id : string | null` becomes `Option String`). -/
structure SuspiciousAccount where
  account_id : String
  suspicion_score : Rat
  detected_patterns : List String
  ring_id : Option String
deriving Repr, DecidableEq, Inhabited

/-- Fraud ring record, from the `FraudRing` interface. -/
structure FraudRing where
  ring_id : String
  member_accounts : List String
  pattern_type : String
  risk_score : Rat
deriving Repr, DecidableEq, Inhabited

/-- Run summary, from the `DetectionSummary` interface.  Wall-clock
timing is not modelled; `processing_time_seconds` is fixed to `0`. -/
structure DetectionSummary where
  total_accounts_analyzed : Nat
  suspicious_accounts_flagged : Nat
  fraud_rings_detected : Nat
  processing_time_seconds : Rat
deriving Repr, DecidableEq, Inhabited

/-- Detection result, from the `DetectionResult` interface. -/
structure DetectionResult where
  suspicious_accounts : List SuspiciousAccount
  fraud_rings : List FraudRing
  summary : DetectionSummary
deriving Repr, DecidableEq, Inhabited

/-- Per-row parse error, from the `ParseError` interface. -/
structure ParseError where
  row : Nat
  message : String
deriving Repr, DecidableEq, Inhabited

/-- Parse result, from the `ParseResult` interface. -/
structure ParseResult where
  transactions : List Transaction
  errors : List ParseError
deriving Repr, DecidableEq, Inhabited

/-! ## Association lists modelling JS `Map` -/

/-- Lookup in an association list (JS `Map.get`). -/
def alGet {α : Type} : List (String × α) → String → Option α
  | [], _ => none
  | (k, v) :: rest, key => if k = key then some v else alGet rest key

/-- Lookup with default. -/
def alGetD {α : Type} (m : List (String × α)) (key : String) (d : α) : α :=
  (alGet m key).getD d

/-- Insert-or-update (JS `Map.set`): an existing key keeps its position,
a new key is appended at the end (insertion order). -/
def alSet {α : Type} : List (String × α) → String → α → List (String × α)
  | [], key, v => [(key, v)]
  | (k, w) :: rest, key, v =>
    if k = key then (k, v) :: rest else (k, w) :: alSet rest key v

/-- Update the value at an existing key in place; no effect on a missing
key. -/
def alUpdate {α : Type} : List (String × α) → String → (α → α) → List (String × α)
  | [], _, _ => []
  | (k, v) :: rest, key, f =>
    if k = key then (k, f v) :: rest else (k, v) :: alUpdate rest key f

/-- Key membership (JS `Map.has`). -/
def alHas {α : Type} (m : List (String × α)) (key : String) : Bool :=
  (alGet m key).isSome

/-! ## Small utilities shared by the detectors -/

/-- Duplicate removal keeping first occurrences, in order (JS
`[...new Set(xs)]`). -/
def dedupFirstAux : List String → List String → List String
  | _, [] => []
  | seen, x :: xs =>
    if x ∈ seen then dedupFirstAux seen xs
    else x :: dedupFirstAux (x :: seen) xs

/-- Duplicate removal keeping first occurrences (JS `Set` iteration
order). -/
def dedupFirst (l : List String) : List String :=
  dedupFirstAux [] l

/-- Stable insertion into a list: `x` is placed before the first element
`y` for which `prec y x` fails (`prec y x` meaning `y` strictly precedes
`x` under the sort comparator). -/
def insStable {α : Type} (prec : α → α → Bool) (x : α) : List α → List α
  | [] => [x]
  | y :: l => if prec y x then y :: insStable prec x l else x :: y :: l

/-- Stable sort (the unique output of JS `Array.prototype.sort`, which is
stable, under a consistent comparator: `prec y x` holds when the
comparator orders `y` strictly before `x`). -/
def sortStable {α : Type} (prec : α → α → Bool) : List α → List α
  | [] => []
  | x :: xs => insStable prec x (sortStable prec xs)

/-- Minimum of a list of integers (JS `Math.min(...xs)`); `0` on the
empty list, which no caller reaches. -/
def listMinInt : List Int → Int
  | [] => 0
  | x :: xs => xs.foldl min x

/-- Maximum of a list of integers (JS `Math.max(...xs)`). -/
def listMaxInt : List Int → Int
  | [] => 0
  | x :: xs => xs.foldl max x

/-- Maximum of a list of rationals (JS `Math.max(...xs)`); `0` on the
empty list, which no caller reaches. -/
def listMaxRat : List Rat → Rat
  | [] => 0
  | x :: xs => xs.foldl max x

/-- Sum of a list of rationals. -/
def sumRat (l : List Rat) : Rat :=
  l.foldl (· + ·) 0

/-- Lexicographic comparison of character lists by code point, the JS
`<` on strings (JS compares UTF-16 code units; identical on the basic
multilingual plane). -/
def charListLt : List Char → List Char → Bool
  | [], [] => false
  | [], _ :: _ => true
  | _ :: _, [] => false
  | a :: as, b :: bs =>
    if a.toNat < b.toNat then true
    else if b.toNat < a.toNat then false
    else charListLt as bs

/-- JS `<` on strings. -/
def strLt (a b : String) : Bool :=
  charListLt a.data b.data

/-- Minimum string of a nonempty list under lexicographic order (JS
`xs.reduce((a, b) => (a < b ? a : b))`); `""` on the empty list, which no
caller reaches. -/
def listMinStr : List String → String
  | [] => ""
  | x :: xs => xs.foldl (fun a b => if strLt a b then a else b) x

/-- First index of an element (JS `Array.prototype.indexOf`); returns the
length when absent. -/
def listIdxOf : List String → String → Nat
  | [], _ => 0
  | x :: xs, a => if x = a then 0 else listIdxOf xs a + 1

/-- List-of-characters version of string prefix testing. -/
def isPrefixL : List Char → List Char → Bool
  | [], _ => true
  | _ :: _, [] => false
  | a :: as, b :: bs => a = b && isPrefixL as bs

/-- Substring occurrence test over character lists. -/
def containsL : List Char → List Char → Bool
  | [], pat => isPrefixL pat []
  | s@(_ :: rest), pat => isPrefixL pat s || containsL rest pat

/-- JS `String.prototype.includes`. -/
def strContains (s pat : String) : Bool :=
  containsL s.data pat.data

/-- JS `Math.round`: round half toward positive infinity. -/
def jsRound (x : Rat) : Int :=
  Int.floor (x + 1 / 2)

/-- Rounding to one decimal place, `Math.round(x * 10) / 10`. -/
def round1 (x : Rat) : Rat :=
  (jsRound (x * 10) : Rat) / 10

/-! ## Graph builder (`buildGraph`) -/

/-- Account node, from the `GraphNode` interface. -/
structure GraphNode where
  id : String
  outEdges : List (String × Nat)
  inEdges : List (String × Nat)
  transactions : List Transaction
  totalTxCount : Nat
deriving Repr, DecidableEq, Inhabited

/-- Graph keyed by account id (`Map<string, GraphNode>`), in insertion
order. -/
abbrev Graph : Type := List (String × GraphNode)

/-- Ensure an account node exists (`getOrCreate` inside `buildGraph`);
a fresh empty node is appended for a missing id. -/
def ensureNode (nodes : Graph) (id : String) : Graph :=
  if alHas nodes id then nodes
  else alSet nodes id { id := id, outEdges := [], inEdges := [], transactions := [], totalTxCount := 0 }

/-- One iteration of `buildGraph`'s transaction loop: create both
endpoint nodes, bump the sender's out-edge count and the receiver's
in-edge count, push the transaction on the sender, and bump both total
counters.  Sequential updates also handle `sender_id = receiver_id`
exactly as the aliased-object mutation in the source does. -/
def buildGraphStep (nodes : Graph) (tx : Transaction) : Graph :=
  let nodes := ensureNode nodes tx.sender_id
  let nodes := ensureNode nodes tx.receiver_id
  let nodes := alUpdate nodes tx.sender_id (fun n =>
    { n with outEdges := alSet n.outEdges tx.receiver_id (alGetD n.outEdges tx.receiver_id 0 + 1),
             transactions := n.transactions ++ [tx],
             totalTxCount := n.totalTxCount + 1 })
  alUpdate nodes tx.receiver_id (fun n =>
    { n with inEdges := alSet n.inEdges tx.sender_id (alGetD n.inEdges tx.sender_id 0 + 1),
             totalTxCount := n.totalTxCount + 1 })

/-- `buildGraph`: fold the step over the transaction list. -/
def buildGraph (transactions : List Transaction) : Graph :=
  transactions.foldl buildGraphStep []

/-! ## Cycle detection (`detectCycles`) -/

/-- Result of the cycle detector (`CycleResult`). -/
structure CycleResult where
  cycle : List String
deriving Repr, DecidableEq, Inhabited

/-- Accumulator for the cycle DFS: discovered cycles plus the
`allCycleStrings` dedup set. -/
structure CycleAcc where
  cycles : List CycleResult
  seen : List String
deriving Repr, DecidableEq, Inhabited

/-- Canonical rotation of a cycle: rotate so the lexicographically
smallest account id comes first (`detectCycles`'s normalization). -/
def canonRot (cycle : List String) : List String :=
  let minIdx := listIdxOf cycle (listMinStr cycle)
  cycle.drop minIdx ++ cycle.take minIdx

/-- Dedup key of a cycle: the canonical rotation joined with commas
(`normalized.flatten(",")`). -/
def canonKey (cycle : List String) : String :=
  String.intercalate "," (canonRot cycle)

/-- The recursive `dfs` of `detectCycles`.  The source recursion is
bounded by the `path.length < 5` guard; `fuel` (called with `5`, one
more than the maximal number of nested calls) makes that bound
structural and never runs out while the guard allows recursion. -/
def cycleDfs (nodes : Graph) (start : String) : Nat → String → List String → List String → CycleAcc → CycleAcc
  | 0, _, _, _, acc => acc
  | fuel + 1, current, path, visited, acc =>
    match alGet nodes current with
    | none => acc
    | some node =>
      node.outEdges.foldl (fun acc e =>
        let neighbor := e.1
        if neighbor = start && decide (3 ≤ path.length) && decide (path.length ≤ 5) then
          let key := canonKey path
          if key ∈ acc.seen then acc
          else { cycles := acc.cycles ++ [⟨path⟩], seen := acc.seen ++ [key] }
        else if neighbor ∉ visited ∧ path.length < 5 then
          cycleDfs nodes start fuel neighbor (path ++ [neighbor]) (visited ++ [neighbor]) acc
        else acc) acc

/-- `detectCycles`: run the DFS from every node, sharing the cycle list
and the dedup set across starts. -/
def detectCycles (nodes : Graph) : List CycleResult :=
  ((nodes.map Prod.fst).foldl
    (fun acc nodeId => cycleDfs nodes nodeId 5 nodeId [nodeId] [nodeId] acc)
    ⟨[], []⟩).cycles

/-! ## Smurfing detection (`detectSmurfing`) -/

/-- `SMURF_THRESHOLD`. -/
def SMURF_THRESHOLD : Nat := 10

/-- `SMURF_WINDOW_MS`, 72 hours in milliseconds. -/
def SMURF_WINDOW_MS : Int := 72 * 60 * 60 * 1000

/-- Direction tag of a smurfing flag (`"fan_in" | "fan_out"`). -/
inductive SmurfType where
  | fanIn
  | fanOut
deriving Repr, DecidableEq, Inhabited

/-- Result of the smurfing detector (`SmurfResult`). -/
structure SmurfResult where
  type : SmurfType
  account : String
  counterparties : List String
deriving Repr, DecidableEq, Inhabited

/-- Append a transaction to its group (the
`if (!m.has(k)) m.set(k, []); m.get(k).push(tx)` idiom). -/
def groupPush (m : List (String × List Transaction)) (k : String) (tx : Transaction) :
    List (String × List Transaction) :=
  if alHas m k then alUpdate m k (· ++ [tx]) else m ++ [(k, [tx])]

/-- Group all transactions by receiver and by sender, in one pass as in
the source. -/
def groupByEnds (transactions : List Transaction) :
    List (String × List Transaction) × List (String × List Transaction) :=
  transactions.foldl
    (fun m tx => (groupPush m.1 tx.receiver_id tx, groupPush m.2 tx.sender_id tx))
    ([], [])

/-- Stable ascending sort by timestamp
(`[...txs].sort((a, b) => a.timestamp - b.timestamp)`). -/
def sortByTime (txs : List Transaction) : List Transaction :=
  sortStable (fun y x => y.timestamp < x.timestamp) txs

/-- Number of front elements the sliding-window `while` loops evict: the
count of leading transactions whose distance from the right endpoint's
timestamp exceeds the window `w`. -/
def countEvictW (w : Int) (rts : Int) : List Transaction → Nat
  | [] => 0
  | t :: ts => if rts - t.timestamp > w then countEvictW w rts ts + 1 else 0

/-- Eviction count for the smurfing window. -/
def countEvict (rts : Int) (ts : List Transaction) : Nat :=
  countEvictW SMURF_WINDOW_MS rts ts

/-- One step of the sliding-window loop shared by the fan-in and fan-out
checks: advance the left pointer, collect the window's unique
counterparties, and record them (stopping the scan — the `break`) when
the threshold is reached. -/
def smurfStep (sorted : List Transaction) (getParty : Transaction → String)
    (st : Nat × Option (List String)) (right : Nat) : Nat × Option (List String) :=
  match st.2 with
  | some w => (st.1, some w)
  | none =>
    let rts := (sorted.getD right default).timestamp
    let left := st.1 + countEvict rts (sorted.drop st.1)
    let window := (sorted.drop left).take (right + 1 - left)
    let uniq := dedupFirst (window.map getParty)
    if SMURF_THRESHOLD ≤ uniq.length then (left, some uniq) else (left, none)

/-- The sliding-window scan of one account's transaction group: `some`
unique-counterparty set of the first qualifying window, else `none`. -/
def smurfScan (getParty : Transaction → String) (txs : List Transaction) : Option (List String) :=
  let sorted := sortByTime txs
  ((List.range sorted.length).foldl (smurfStep sorted getParty) (0, none)).2

/-- Body of the per-group loop of `detectSmurfing`: append a flag for
the group's account when its scan found a qualifying window. -/
def fanStep (ty : SmurfType) (getParty : Transaction → String)
    (acc : List SmurfResult) (g : String × List Transaction) : List SmurfResult :=
  match smurfScan getParty g.2 with
  | some uniq => acc ++ [⟨ty, g.1, uniq⟩]
  | none => acc

/-- `detectSmurfing`: fan-in flags over the by-receiver groups followed
by fan-out flags over the by-sender groups. -/
def detectSmurfing (transactions : List Transaction) : List SmurfResult :=
  let groups := groupByEnds transactions
  let fanIns := groups.1.foldl (fanStep SmurfType.fanIn (fun t => t.sender_id)) []
  let fanOuts := groups.2.foldl (fanStep SmurfType.fanOut (fun t => t.receiver_id)) []
  fanIns ++ fanOuts

/-! ## Shell network detection (`detectShellNetworks`) -/

/-- Result of the shell-chain detector (`ShellChainResult`). -/
structure ShellChainResult where
  chain : List String
deriving Repr, DecidableEq, Inhabited

/-- Accumulator for the shell DFS: discovered chains plus the
`reportedChains` dedup set. -/
structure ShellAcc where
  chains : List ShellChainResult
  reported : List String
deriving Repr, DecidableEq, Inhabited

/-- Low-activity bound on a possibly missing node
(`(nodes.get(id)?.totalTxCount || 0) <= 3`). -/
def lowActivityD (nodes : Graph) (id : String) : Bool :=
  ((alGet nodes id).map GraphNode.totalTxCount).getD 0 ≤ 3

/-- The recursive `dfs` of `detectShellNetworks`.  The source recursion
is bounded by the `newPath.length < 7` guard; `fuel` (called with `8`)
makes the bound structural and never runs out while the guard allows
recursion.  Note the guard `path.length > 0` from the source is always
true (the path always contains the start), so the current node's
low-activity test applies even at the start node. -/
def shellDfs (nodes : Graph) : Nat → String → List String → ShellAcc → ShellAcc
  | 0, _, _, acc => acc
  | fuel + 1, current, path, acc =>
    match alGet nodes current with
    | none => acc
    | some node =>
      node.outEdges.foldl (fun acc e =>
        let neighbor := e.1
        if neighbor ∈ path then acc
        else
          let isLowActivity := node.totalTxCount ≤ 3
          if 0 < path.length ∧ ¬ isLowActivity then acc
          else
            let newPath := path ++ [neighbor]
            let acc :=
              if 3 ≤ newPath.length then
                let intermediates := (newPath.drop 1).dropLast
                if intermediates.all (lowActivityD nodes) then
                  let key := String.intercalate "→" newPath
                  if key ∈ acc.reported then acc
                  else { chains := acc.chains ++ [⟨newPath⟩], reported := acc.reported ++ [key] }
                else acc
              else acc
            if newPath.length < 7 then shellDfs nodes fuel neighbor newPath acc
            else acc) acc

/-- `detectShellNetworks`: run the DFS from every node, sharing the
chain list and the dedup set across starts. -/
def detectShellNetworks (nodes : Graph) : List ShellChainResult :=
  ((nodes.map Prod.fst).foldl
    (fun acc nodeId => shellDfs nodes 8 nodeId [nodeId] acc)
    ⟨[], []⟩).chains

/-! ## False-positive control (`isMerchantLike`) and velocity -/

/-- Milliseconds in a day. -/
def MS_PER_DAY : Int := 1000 * 60 * 60 * 24

/-- The transactions touching an account, as sender or receiver. -/
def accountTxs (account : String) (transactions : List Transaction) : List Transaction :=
  transactions.filter (fun t => t.sender_id = account || t.receiver_id = account)

/-- `isMerchantLike`: at least 20 transactions as sender or receiver
whose timestamps span at least 30 days, provided the account has a node. -/
def isMerchantLike (account : String) (nodes : Graph) (transactions : List Transaction) : Bool :=
  match alGet nodes account with
  | none => false
  | some _ =>
    let atxs := accountTxs account transactions
    if atxs.length < 20 then false
    else
      let times := atxs.map Transaction.timestamp
      let spanDays : Rat := ((listMaxInt times - listMinInt times : Int) : Rat) / (MS_PER_DAY : Rat)
      decide (30 ≤ spanDays)

/-- One step of `hasHighVelocity`'s sliding-window loop: advance the
left pointer and stop as soon as a 24-hour window holds 5 or more
transactions. -/
def velocityStep (sorted : List Transaction) (st : Nat × Bool) (right : Nat) : Nat × Bool :=
  if st.2 then st
  else
    let rts := (sorted.getD right default).timestamp
    let left := st.1 + (countEvictW (24 * 60 * 60 * 1000) rts (sorted.drop st.1))
    (left, decide (5 ≤ right + 1 - left))

/-- `hasHighVelocity`: 5 or more transactions of the account inside some
rolling 24-hour window. -/
def hasHighVelocity (account : String) (transactions : List Transaction) : Bool :=
  let sorted := sortByTime (accountTxs account transactions)
  ((List.range sorted.length).foldl (velocityStep sorted) (0, false)).2

/-! ## Main detection engine (`runDetection`) -/

/-- Mutable accumulators of `runDetection`: the score map, the pattern
map (sets as duplicate-free lists in insertion order), the ring
membership map, the fraud-ring list, and the ring counter. -/
structure DetState where
  scores : List (String × Rat)
  patterns : List (String × List String)
  ringMembership : List (String × String)
  fraudRings : List FraudRing
  ringCounter : Nat
deriving Repr, DecidableEq, Inhabited

/-- Initial state (`ringCounter = 1`). -/
def detState0 : DetState :=
  { scores := [], patterns := [], ringMembership := [], fraudRings := [], ringCounter := 1 }

/-- `addScore`: add points, capping the stored value at 100. -/
def addScoreStep (scores : List (String × Rat)) (account : String) (points : Rat) :
    List (String × Rat) :=
  alSet scores account (min 100 (alGetD scores account 0 + points))

/-- `addPattern`: add a tag to the account's pattern set. -/
def addPatternStep (patterns : List (String × List String)) (account pattern : String) :
    List (String × List String) :=
  match alGet patterns account with
  | none => alSet patterns account [pattern]
  | some ps => if pattern ∈ ps then patterns else alSet patterns account (ps ++ [pattern])

/-- Ring identifier: `` `RING_${String(n).padStart(3, "0")}` ``. -/
def ringName (n : Nat) : String :=
  let s := toString n
  "RING_" ++ (String.mk (List.replicate (3 - s.length) '0') ++ s)

/-- Pass 1 body: process one detected cycle — score and tag every member,
(re)assign its ring membership, and push the cycle ring. -/
def processCycle (st : DetState) (c : CycleResult) : DetState :=
  let ringId := ringName st.ringCounter
  let cycleLength := c.cycle.length
  let st1 := c.cycle.foldl (fun s account =>
    { s with scores := addScoreStep s.scores account 45,
             patterns := addPatternStep s.patterns account ("cycle_length_" ++ toString cycleLength),
             ringMembership := alSet s.ringMembership account ringId })
    { st with ringCounter := st.ringCounter + 1 }
  { st1 with fraudRings := st1.fraudRings ++
      [{ ring_id := ringId,
         member_accounts := dedupFirst c.cycle,
         pattern_type := "cycle",
         risk_score := min 100 (45 + (if 4 ≤ cycleLength then (15 : Rat) else 0)) }] }

/-- Pass 2 body: process one smurfing flag — score and tag the account
and create a ring only when the account holds none yet. -/
def processSmurf (st : DetState) (smurf : SmurfResult) : DetState :=
  let st1 := { st with
    scores := addScoreStep st.scores smurf.account 30,
    patterns := addPatternStep st.patterns smurf.account
      (if smurf.type = SmurfType.fanIn then "fan_in_smurfing" else "fan_out_smurfing") }
  match alGet st1.ringMembership smurf.account with
  | some _ => st1
  | none =>
    let ringId := ringName st1.ringCounter
    { st1 with
      ringCounter := st1.ringCounter + 1,
      ringMembership := alSet st1.ringMembership smurf.account ringId,
      fraudRings := st1.fraudRings ++
        [{ ring_id := ringId,
           member_accounts := smurf.account :: smurf.counterparties.take 20,
           pattern_type := if smurf.type = SmurfType.fanIn then "smurfing_fan_in" else "smurfing_fan_out",
           risk_score := min 100 (30 + (smurf.counterparties.length : Rat) * (3 / 2)) }] }

/-- Pass 3 body: process one shell chain — score and tag intermediates
and endpoints, then create a ring (assigning every chain member) when
the chain's first account holds none yet. -/
def processShell (st : DetState) (c : ShellChainResult) : DetState :=
  let chain := c.chain
  let intermediates := (chain.drop 1).dropLast
  let st1 := intermediates.foldl (fun s account =>
    { s with scores := addScoreStep s.scores account 35,
             patterns := addPatternStep s.patterns account "shell_intermediary" }) st
  let headA := chain.getD 0 ""
  let lastA := chain.getLastD ""
  let st2 := { st1 with
    scores := addScoreStep (addScoreStep st1.scores headA 20) lastA 20,
    patterns := addPatternStep (addPatternStep st1.patterns headA "shell_chain") lastA "shell_chain" }
  match alGet st2.ringMembership headA with
  | some _ => st2
  | none =>
    let ringId := ringName st2.ringCounter
    { st2 with
      ringCounter := st2.ringCounter + 1,
      ringMembership := chain.foldl (fun m a => alSet m a ringId) st2.ringMembership,
      fraudRings := st2.fraudRings ++
        [{ ring_id := ringId,
           member_accounts := chain,
           pattern_type := "shell_chain",
           risk_score := min 100 (35 + (chain.length : Rat) * 5) }] }

/-- Pass 4 body: multiple-pattern bonus and high-velocity check for one
account. -/
def processBonus (transactions : List Transaction) (st : DetState) (account : String) : DetState :=
  let st1 :=
    match alGet st.patterns account with
    | some ps => if 2 ≤ ps.length then { st with scores := addScoreStep st.scores account 15 } else st
    | none => st
  if hasHighVelocity account transactions then
    { st1 with scores := addScoreStep st1.scores account 10,
               patterns := addPatternStep st1.patterns account "high_velocity" }
  else st1

/-- The structural-pattern test of pass 5
(`[...patternSet].some((p) => p.includes("cycle") || ...)`). -/
def hasMaliciousPattern (patternSet : List String) : Bool :=
  patternSet.any (fun p => strContains p "cycle" || strContains p "smurfing" || strContains p "shell")

/-- Pass 5: build the suspicious-account list from the score map,
skipping non-positive scores and merchant-like accounts without a
structural pattern. -/
def buildSuspicious (nodes : Graph) (transactions : List Transaction)
    (scores : List (String × Rat)) (patterns : List (String × List String))
    (ringMembership : List (String × String)) : List SuspiciousAccount :=
  scores.foldl (fun acc kv =>
    let account := kv.1
    let score := kv.2
    if score ≤ 0 then acc
    else
      let patternSet := (alGet patterns account).getD []
      if ¬ hasMaliciousPattern patternSet ∧ isMerchantLike account nodes transactions then acc
      else acc ++
        [{ account_id := account,
           suspicion_score := round1 score,
           detected_patterns := patternSet,
           ring_id := alGet ringMembership account }]) []

/-- Member scores of a ring, read off the final suspicious-account list;
an absent member contributes `0` (`?.suspicion_score || 0`). -/
def memberScoresOf (accounts : List SuspiciousAccount) (ring : FraudRing) : List Rat :=
  ring.member_accounts.map (fun m =>
    (((accounts.find? (fun a => a.account_id = m)).map SuspiciousAccount.suspicion_score)).getD 0)

/-- Final per-ring risk update:
`0.6 × max(member scores) + 0.4 × mean(member scores)`, rounded to one
decimal. -/
def updateRingRisk (accounts : List SuspiciousAccount) (ring : FraudRing) : FraudRing :=
  let memberScores := memberScoresOf accounts ring
  if 0 < memberScores.length then
    let risk := round1 (listMaxRat memberScores * (6 / 10) +
      (sumRat memberScores / (memberScores.length : Rat)) * (4 / 10))
    { ring with risk_score := risk }
  else ring

/-- State after pass 1 (cycle detection). -/
def stateAfterCycles (transactions : List Transaction) : DetState :=
  (detectCycles (buildGraph transactions)).foldl processCycle detState0

/-- State after pass 2 (smurfing detection). -/
def stateAfterSmurfs (transactions : List Transaction) : DetState :=
  (detectSmurfing transactions).foldl processSmurf (stateAfterCycles transactions)

/-- State after pass 3 (shell-network detection). -/
def stateAfterShells (transactions : List Transaction) : DetState :=
  (detectShellNetworks (buildGraph transactions)).foldl processShell (stateAfterSmurfs transactions)

/-- State after pass 4 (multiple-pattern bonus and velocity). -/
def stateFinal (transactions : List Transaction) : DetState :=
  ((buildGraph transactions).map Prod.fst).foldl (processBonus transactions) (stateAfterShells transactions)

/-- Descending stable sort of the suspicious accounts
(`sort((a, b) => b.suspicion_score - a.suspicion_score)`). -/
def sortBySuspicion (l : List SuspiciousAccount) : List SuspiciousAccount :=
  sortStable (fun y x => x.suspicion_score < y.suspicion_score) l

/-- `runDetection`: the full engine. -/
def runDetection (transactions : List Transaction) : DetectionResult :=
  let nodes := buildGraph transactions
  let allAccounts := nodes.map Prod.fst
  let st := stateFinal transactions
  let suspiciousAccounts :=
    sortBySuspicion (buildSuspicious nodes transactions st.scores st.patterns st.ringMembership)
  let rings := st.fraudRings.map (updateRingRisk suspiciousAccounts)
  { suspicious_accounts := suspiciousAccounts,
    fraud_rings := rings,
    summary :=
      { total_accounts_analyzed := allAccounts.length,
        suspicious_accounts_flagged := suspiciousAccounts.length,
        fraud_rings_detected := rings.length,
        processing_time_seconds := 0 } }

/-! ## CSV parser (`parseCSV`)

String handling is modelled over character lists.  JS `parseFloat` is
modelled on finite decimal literals (optional sign, digits, fraction,
exponent); the `Infinity` literal and non-decimal forms are outside the
model.  `Date` parsing of the already-format-checked
`YYYY-MM-DDTHH:MM:SSZ` string is modelled by explicit calendar
validation and the civil-days epoch conversion. -/

/-- Whitespace recognised by JS `trim` (ASCII subset). -/
def isJsSpace (c : Char) : Bool :=
  c = ' ' || c = '\t' || c = '\n' || c = '\r' || c = '\x0b' || c = '\x0c'

/-- JS `String.prototype.trim`. -/
def jsTrim (s : String) : String :=
  String.mk (((s.data.dropWhile isJsSpace).reverse.dropWhile isJsSpace).reverse)

/-- Split a character list on a separator character (JS
`String.prototype.split` with a one-character separator). -/
def splitOnCharAux (sep : Char) : List Char → List Char → List (List Char)
  | current, [] => [current.reverse]
  | current, c :: rest =>
    if c = sep then current.reverse :: splitOnCharAux sep [] rest
    else splitOnCharAux sep (c :: current) rest

/-- String split on one character. -/
def splitOnChar (sep : Char) (s : String) : List String :=
  (splitOnCharAux sep [] s.data).map String.mk

/-- Strip one leading and one trailing double quote
(`replace(/^"|"$/g, "")`). -/
def stripQuotes (s : String) : String :=
  let d := match s.data with
    | '"' :: rest => rest
    | l => l
  let d := match d.reverse with
    | '"' :: rest => rest.reverse
    | _ => d
  String.mk d

/-- ASCII lowercasing (JS `toLowerCase` restricted to ASCII letters). -/
def jsToLower (s : String) : String :=
  String.mk (s.data.map Char.toLower)

/-- The quote-aware per-row splitter `parseCSVLine`. -/
def parseCSVLineAux : List Char → Bool → List Char → List String
  | [], _, current => [String.mk current.reverse]
  | ch :: rest, inQuotes, current =>
    if ch = '"' then parseCSVLineAux rest (!inQuotes) current
    else if ch = ',' && !inQuotes then
      String.mk current.reverse :: parseCSVLineAux rest inQuotes []
    else parseCSVLineAux rest inQuotes (ch :: current)

/-- `parseCSVLine`. -/
def parseCSVLine (line : String) : List String :=
  parseCSVLineAux line.data false []

/-- `REQUIRED_COLUMNS`. -/
def REQUIRED_COLUMNS : List String :=
  ["transaction_id", "sender_id", "receiver_id", "amount", "timestamp"]

/-- Digit list to number. -/
def digitsToNat (ds : List Char) : Nat :=
  ds.foldl (fun acc c => 10 * acc + (c.toNat - 48)) 0

/-- Signed exponent digits helper for `jsParseExp`. -/
def jsParseExpSigned (rest : List Char) : Int :=
  let signed : Int × List Char :=
    match rest with
    | '-' :: r => (-1, r)
    | '+' :: r => (1, r)
    | r => (1, r)
  let ds := signed.2.takeWhile Char.isDigit
  if ds = [] then 0 else signed.1 * (digitsToNat ds : Int)

/-- Exponent part of a JS decimal literal: consumed only when `e`/`E`
with at least one digit follows; otherwise ignored (as `parseFloat`'s
longest-valid-prefix rule does). -/
def jsParseExp : List Char → Int
  | 'e' :: rest => jsParseExpSigned rest
  | 'E' :: rest => jsParseExpSigned rest
  | _ => 0

/-- Model of JS `parseFloat` on finite decimal literals: `none` exactly
when `parseFloat` yields `NaN` (no digit in the integer or fraction
part). -/
def jsParseFloat (s : String) : Option Rat :=
  let cs := s.data.dropWhile isJsSpace
  let signed : Rat × List Char :=
    match cs with
    | '-' :: rest => (-1, rest)
    | '+' :: rest => (1, rest)
    | rest => (1, rest)
  let intDigits := signed.2.takeWhile Char.isDigit
  let afterInt := signed.2.dropWhile Char.isDigit
  let fracPart : List Char × List Char :=
    match afterInt with
    | '.' :: rest => (rest.takeWhile Char.isDigit, rest.dropWhile Char.isDigit)
    | l => ([], l)
  if intDigits = [] ∧ fracPart.1 = [] then none
  else
    let mantissa : Rat :=
      (digitsToNat intDigits : Rat) + (digitsToNat fracPart.1 : Rat) / ((10 : Rat) ^ fracPart.1.length)
    let e := jsParseExp fracPart.2
    let scaled :=
      if 0 ≤ e then mantissa * (10 : Rat) ^ e.toNat
      else mantissa / (10 : Rat) ^ (-e).toNat
    some (signed.1 * scaled)

/-- `TIMESTAMP_REGEX` (`^\d{4}-\d{2}-\d{2} \d{2}:\d{2}:\d{2}$`). -/
def tsFormatOk (s : String) : Bool :=
  match s.data with
  | [y1, y2, y3, y4, h1, m1, m2, h2, d1, d2, sp, hh1, hh2, c1, mi1, mi2, c2, ss1, ss2] =>
    y1.isDigit && y2.isDigit && y3.isDigit && y4.isDigit && h1 == '-' &&
    m1.isDigit && m2.isDigit && h2 == '-' && d1.isDigit && d2.isDigit && sp == ' ' &&
    hh1.isDigit && hh2.isDigit && c1 == ':' && mi1.isDigit && mi2.isDigit &&
    c2 == ':' && ss1.isDigit && ss2.isDigit
  | _ => false

/-- Gregorian leap-year test. -/
def isLeapYear (y : Nat) : Bool :=
  y % 4 == 0 && (y % 100 != 0 || y % 400 == 0)

/-- Days in a month. -/
def daysInMonth (y m : Nat) : Nat :=
  if m = 2 then (if isLeapYear y then 29 else 28)
  else if m = 4 || m = 6 || m = 9 || m = 11 then 30
  else 31

/-- Days since 1970-01-01 of a civil date (standard civil-from-days
inverse, floor-division form). -/
def daysFromCivil (y m d : Int) : Int :=
  let y1 := if m ≤ 2 then y - 1 else y
  let era := Int.fdiv y1 400
  let yoe := y1 - era * 400
  let mp := Int.fmod (m + 9) 12
  let doy := Int.fdiv (153 * mp + 2) 5 + d - 1
  let doe := yoe * 365 + Int.fdiv yoe 4 - Int.fdiv yoe 100 + doy
  era * 146097 + doe - 719468

/-- Model of `new Date("YYYY-MM-DDTHH:MM:SSZ").getTime()` on a string
that already passed `tsFormatOk`: `none` exactly when the calendar
fields are invalid (the `isNaN(timestamp.getTime())` branch), otherwise
milliseconds since the epoch. -/
def jsDateParse (s : String) : Option Int :=
  match s.data with
  | [y1, y2, y3, y4, _, m1, m2, _, d1, d2, _, hh1, hh2, _, mi1, mi2, _, ss1, ss2] =>
    let y := digitsToNat [y1, y2, y3, y4]
    let m := digitsToNat [m1, m2]
    let d := digitsToNat [d1, d2]
    let hh := digitsToNat [hh1, hh2]
    let mi := digitsToNat [mi1, mi2]
    let ss := digitsToNat [ss1, ss2]
    if 1 ≤ m ∧ m ≤ 12 ∧ 1 ≤ d ∧ d ≤ daysInMonth y m ∧
        (hh ≤ 23 ∧ mi ≤ 59 ∧ ss ≤ 59 ∨ hh = 24 ∧ mi = 0 ∧ ss = 0) then
      some (daysFromCivil (y : Int) (m : Int) (d : Int) * 86400000 +
        ((hh : Int) * 3600 + (mi : Int) * 60 + (ss : Int)) * 1000)
    else none
  | _ => none

/-- One data row of `parseCSV`'s loop: `i` is the 0-based line index,
the state accumulates transactions and errors. -/
def parseRow (colIdx : String → Nat) (st : List Transaction × List ParseError)
    (iLine : Nat × String) : List Transaction × List ParseError :=
  let line := jsTrim iLine.2
  if line = "" then st
  else
    let cols := parseCSVLine line
    let rowNum := iLine.1 + 1
    let tid := jsTrim (cols.getD (colIdx "transaction_id") "")
    let sender := jsTrim (cols.getD (colIdx "sender_id") "")
    let receiver := jsTrim (cols.getD (colIdx "receiver_id") "")
    let amountStr := jsTrim (cols.getD (colIdx "amount") "")
    let timestampStr := jsTrim (cols.getD (colIdx "timestamp") "")
    if tid = "" || sender = "" || receiver = "" then
      (st.1, st.2 ++ [⟨rowNum, "Row " ++ toString rowNum ++ ": Missing required string fields."⟩])
    else
      match jsParseFloat amountStr with
      | none =>
        (st.1, st.2 ++ [⟨rowNum, "Row " ++ toString rowNum ++ ": Invalid amount \"" ++ amountStr ++ "\" — must be a number."⟩])
      | some amount =>
        if ¬ tsFormatOk timestampStr then
          (st.1, st.2 ++ [⟨rowNum, "Row " ++ toString rowNum ++ ": Invalid timestamp \"" ++ timestampStr ++ "\" — must be YYYY-MM-DD HH:MM:SS."⟩])
        else
          match jsDateParse timestampStr with
          | none =>
            (st.1, st.2 ++ [⟨rowNum, "Row " ++ toString rowNum ++ ": Could not parse timestamp \"" ++ timestampStr ++ "\"."⟩])
          | some ts =>
            (st.1 ++ [{ transaction_id := tid, sender_id := sender, receiver_id := receiver,
                        amount := amount, timestamp := ts }], st.2)

/-- `parseCSV`: header validation followed by the per-row loop. -/
def parseCSV (csvText : String) : ParseResult :=
  let lines := splitOnChar '\n' (jsTrim csvText)
  if lines.length < 2 then
    { transactions := [], errors := [⟨0, "CSV file is empty or has no data rows."⟩] }
  else
    let headers := (splitOnChar ',' (lines.getD 0 "")).map (fun h => stripQuotes (jsToLower (jsTrim h)))
    let headerErrors := (REQUIRED_COLUMNS.filter (fun col => ¬ headers.contains col)).map
      (fun col => (⟨0, "Missing required column: \"" ++ col ++ "\""⟩ : ParseError))
    if headerErrors ≠ [] then { transactions := [], errors := headerErrors }
    else
      let colIdx := fun name => listIdxOf headers name
      let st := (lines.enum.drop 1).foldl (parseRow colIdx) ([], [])
      { transactions := st.1, errors := st.2 }

/-! ## Concrete inputs used by counterexamples and witnesses -/

/-- Three transactions forming the directed cycle `A → B → C → A`. -/
def cycTxs : List Transaction :=
  [⟨"T1", "A", "B", 100, 0⟩, ⟨"T2", "B", "C", 100, 1000⟩, ⟨"T3", "C", "A", 100, 2000⟩]

/-- Two directed 3-cycles sharing the account `A`:
`A → B → C → A` and `A → D → E → A`. -/
def twoCycTxs : List Transaction :=
  [⟨"T1", "A", "B", 100, 0⟩, ⟨"T2", "B", "C", 100, 1000⟩, ⟨"T3", "C", "A", 100, 2000⟩,
   ⟨"T4", "A", "D", 100, 3000⟩, ⟨"T5", "D", "E", 100, 4000⟩, ⟨"T6", "E", "A", 100, 5000⟩]

/-- A bare two-hop chain `A → B → C`; every account has at most two
transactions in total. -/
def chainTxs : List Transaction :=
  [⟨"T1", "A", "B", 100, 0⟩, ⟨"T2", "B", "C", 100, 1000⟩]

/-- The chain `A → B → C → D` where `B` and `C` have exactly two total
transactions while `A` and `D` have four each (three extra transactions
with `X` resp. `Y`, days apart so no velocity window fires). -/
def c3Txs : List Transaction :=
  [⟨"T1", "A", "B", 100, 0⟩, ⟨"T2", "B", "C", 100, 1000⟩, ⟨"T3", "C", "D", 100, 2000⟩,
   ⟨"T4", "A", "X", 100, 259200000⟩, ⟨"T5", "A", "X", 100, 518400000⟩,
   ⟨"T6", "A", "X", 100, 777600000⟩,
   ⟨"T7", "D", "Y", 100, 1036800000⟩, ⟨"T8", "D", "Y", 100, 1296000000⟩,
   ⟨"T9", "D", "Y", 100, 1555200000⟩]

/-- A CSV text whose single data row carries the negative amount `-5`. -/
def negAmountCsv : String :=
  "transaction_id,sender_id,receiver_id,amount,timestamp\nT1,A,B,-5,2024-01-01 00:00:00"

/-! ## Easy closed theorems -/

/-! ## Definitions taken from the specification's wording

These are stated from the spec's sentences, for comparison with the
source-derived definitions above. -/

/-- Transactions received by an account. -/
def incomingTxs (account : String) (transactions : List Transaction) : List Transaction :=
  transactions.filter (fun t => t.receiver_id = account)

/-- Number of distinct strings in a list. -/
def uniqueCount (l : List String) : Nat :=
  (dedupFirst l).length

/-- Specification-side fan-in predicate: some 72-hour window of the
account's incoming transactions (inclusive span comparison) contains at
least 10 unique senders. -/
def FanInSpec (account : String) (transactions : List Transaction) : Prop :=
  ∃ t0 : Int, SMURF_THRESHOLD ≤ uniqueCount
    (((incomingTxs account transactions).filter
      (fun t => t0 ≤ t.timestamp ∧ t.timestamp ≤ t0 + SMURF_WINDOW_MS)).map Transaction.sender_id)

/-- Specification-side merchant condition: at least 20 total
transactions (as sender or receiver) whose timestamps span at least 30
days. -/
def specMerchantLike (account : String) (transactions : List Transaction) : Prop :=
  20 ≤ (accountTxs account transactions).length ∧
    (30 : Rat) ≤ ((listMaxInt ((accountTxs account transactions).map Transaction.timestamp) -
      listMinInt ((accountTxs account transactions).map Transaction.timestamp) : Int) : Rat) / (MS_PER_DAY : Rat)

/-! ## Award events: the sequence of `addScore` calls of a run -/

/-- Score events of pass 1: 45 points per cycle member per cycle. -/
def cycleScoreEvents (cycles : List CycleResult) : List (String × Rat) :=
  (cycles.map (fun c => c.cycle.map (fun a => (a, (45 : Rat))))).flatten

/-- Score events of pass 2: 30 points per smurfing flag. -/
def smurfScoreEvents (smurfs : List SmurfResult) : List (String × Rat) :=
  smurfs.map (fun s => (s.account, (30 : Rat)))

/-- Score events of pass 3: 35 points per chain intermediary, then 20
points for each chain endpoint. -/
def shellScoreEvents (chains : List ShellChainResult) : List (String × Rat) :=
  (chains.map (fun c =>
    ((c.chain.drop 1).dropLast.map (fun a => (a, (35 : Rat)))) ++
      [(c.chain.getD 0 "", (20 : Rat)), (c.chain.getLastD "", (20 : Rat))])).flatten

/-- Score events of pass 4 for one account: the multiple-pattern bonus
read off the pattern map as it stands after pass 3, then the velocity
bonus. -/
def bonusScoreEventsOf (transactions : List Transaction)
    (patterns3 : List (String × List String)) (account : String) : List (String × Rat) :=
  (match alGet patterns3 account with
   | some ps => if 2 ≤ ps.length then [(account, (15 : Rat))] else []
   | none => []) ++
  (if hasHighVelocity account transactions then [(account, (10 : Rat))] else [])

/-- All score events of a run, in execution order. -/
def scoreEvents (transactions : List Transaction) : List (String × Rat) :=
  cycleScoreEvents (detectCycles (buildGraph transactions)) ++
  smurfScoreEvents (detectSmurfing transactions) ++
  shellScoreEvents (detectShellNetworks (buildGraph transactions)) ++
  (((buildGraph transactions).map Prod.fst).map
    (bonusScoreEventsOf transactions (stateAfterShells transactions).patterns)).flatten

/-- Sum of the score contributions awarded to one account. -/
def awardSum (account : String) (transactions : List Transaction) : Rat :=
  sumRat (((scoreEvents transactions).filter (fun e => e.1 = account)).map Prod.snd)

/-! ## Characterization helpers for pass 5 -/

/-- The keep-condition of pass 5 on one score-map entry: positive score,
and not a merchant-like account devoid of structural patterns. -/
def keepEntry (nodes : Graph) (transactions : List Transaction)
    (patterns : List (String × List String)) (kv : String × Rat) : Prop :=
  ¬ kv.2 ≤ 0 ∧
    ¬ (¬ hasMaliciousPattern ((alGet patterns kv.1).getD []) ∧
       isMerchantLike kv.1 nodes transactions)

instance (nodes : Graph) (transactions : List Transaction)
    (patterns : List (String × List String)) (kv : String × Rat) :
    Decidable (keepEntry nodes transactions patterns kv) := by
  unfold keepEntry; infer_instance

/-- The suspicious-account record pass 5 builds from one kept score-map
entry. -/
def mkSuspicious (patterns : List (String × List String))
    (ringMembership : List (String × String)) (kv : String × Rat) : SuspiciousAccount :=
  { account_id := kv.1,
    suspicion_score := round1 kv.2,
    detected_patterns := (alGet patterns kv.1).getD [],
    ring_id := alGet ringMembership kv.1 }

/-- Event-shaped form of `addScoreStep`, for folding over award-event
lists. -/
def addScoreEv (m : List (String × Rat)) (e : String × Rat) : List (String × Rat) :=
  addScoreStep m e.1 e.2

/-- The smurfing scan state after processing window right-endpoints
`0, …, k-1`. -/
def smurfScanState (sorted : List Transaction) (getParty : Transaction → String) (k : Nat) :
    Nat × Option (List String) :=
  (List.range k).foldl (smurfStep sorted getParty) (0, none)

/-- Value the sliding window's left pointer settles at for right
endpoint `right`: the number of leading entries of the sorted list whose
distance from the right endpoint's timestamp exceeds the window. -/
def leftMin (sorted : List Transaction) (right : Nat) : Nat :=
  countEvict (sorted.getD right default).timestamp sorted

/-- The window `sorted.slice(left, right + 1)` the scan examines at right
endpoint `right`. -/
def windowAt (sorted : List Transaction) (right : Nat) : List Transaction :=
  (sorted.drop (leftMin sorted right)).take (right + 1 - leftMin sorted right)

/-- The scan's success condition at right endpoint `right`: the window's
unique counterparties reach the smurfing threshold. -/
def QualifiesAt (sorted : List Transaction) (getParty : Transaction → String)
    (right : Nat) : Prop :=
  SMURF_THRESHOLD ≤ (dedupFirst ((windowAt sorted right).map getParty)).length

/-- Invariant linking ring membership to the ring list: every membership
binding points at a ring in the list that contains the account. -/
def RingInv (st : DetState) : Prop :=
  ∀ a rid, alGet st.ringMembership a = some rid →
    ∃ ring ∈ st.fraudRings, ring.ring_id = rid ∧ a ∈ ring.member_accounts

/-- Invariant on a score map: keys are distinct and every stored value
lies in `[0, 100]`. -/
def ScoreInvM (m : List (String × Rat)) : Prop :=
  (m.map Prod.fst).Nodup ∧ ∀ kv ∈ m, 0 ≤ kv.2 ∧ kv.2 ≤ 100

/-- Invariant of the cycle detector's accumulator: every recorded cycle
has between 3 and 5 distinct accounts and its canonical key is in the
seen set, and recorded cycles have pairwise distinct canonical keys. -/
def CycleInv (acc : CycleAcc) : Prop :=
  (∀ r ∈ acc.cycles, 3 ≤ r.cycle.length ∧ r.cycle.length ≤ 5 ∧ r.cycle.Nodup ∧
    canonKey r.cycle ∈ acc.seen) ∧
  acc.cycles.Pairwise (fun r1 r2 => canonKey r1.cycle ≠ canonKey r2.cycle)

/-! ## Association-list laws -/

theorem alGet_alSet {α : Type} (m : List (String × α)) (key k : String) (v : α) :
    alGet (alSet m key v) k = if key = k then some v else alGet m k := by
  induction m with
  | nil => simp [alSet, alGet]
  | cons p rest ih =>
    obtain ⟨pk, pv⟩ := p
    by_cases h1 : pk = key
    · subst h1
      by_cases h2 : pk = k
      · subst h2
        simp [alSet, alGet]
      · simp [alSet, alGet, h2]
    · by_cases h2 : key = k
      · subst h2
        simp [alSet, alGet, h1, ih]
      · by_cases h3 : pk = k
        · subst h3
          simp [alSet, alGet, h1, h2]
        · simp [alSet, alGet, h1, h2, h3, ih]

theorem alGet_alUpdate {α : Type} (m : List (String × α)) (key k : String) (f : α → α) :
    alGet (alUpdate m key f) k =
      if key = k then (alGet m k).map f else alGet m k := by
  induction m with
  | nil => by_cases h : key = k <;> simp [alUpdate, alGet, h]
  | cons p rest ih =>
    obtain ⟨pk, pv⟩ := p
    by_cases h1 : pk = key
    · subst h1
      by_cases h2 : pk = k
      · subst h2
        simp [alUpdate, alGet]
      · simp [alUpdate, alGet, h2]
    · by_cases h2 : key = k
      · subst h2
        simp [alUpdate, alGet, h1, ih]
      · by_cases h3 : pk = k
        · subst h3
          simp [alUpdate, alGet, h1, h2]
        · simp [alUpdate, alGet, h1, h2, h3, ih]

theorem alGet_mem {α : Type} (m : List (String × α)) (k : String) (v : α)
    (h : alGet m k = some v) : (k, v) ∈ m := by
  induction m with
  | nil => simp [alGet] at h
  | cons p rest ih =>
    obtain ⟨pk, pv⟩ := p
    simp only [alGet] at h
    by_cases hpk : pk = k
    · subst hpk
      rw [if_pos rfl] at h
      injection h with h1
      subst h1
      exact List.mem_cons_self _ _
    · rw [if_neg hpk] at h
      exact List.mem_cons_of_mem _ (ih h)

theorem mem_keys_of_mem {α : Type} (m : List (String × α)) (k : String) (v : α)
    (h : (k, v) ∈ m) : k ∈ m.map Prod.fst :=
  List.mem_map.mpr ⟨(k, v), h, rfl⟩

theorem mem_alGet {α : Type} (m : List (String × α)) (k : String) (v : α)
    (hnd : (m.map Prod.fst).Nodup) (h : (k, v) ∈ m) : alGet m k = some v := by
  induction m with
  | nil => simp at h
  | cons p rest ih =>
    obtain ⟨pk, pv⟩ := p
    simp only [List.map_cons, List.nodup_cons] at hnd
    rcases List.mem_cons.mp h with h1 | h1
    · rw [Prod.mk.injEq] at h1
      obtain ⟨hk, hv⟩ := h1
      subst hk
      subst hv
      simp [alGet]
    · have hne : pk ≠ k := by
        intro he
        subst he
        exact hnd.1 (mem_keys_of_mem _ _ _ h1)
      simp only [alGet, if_neg hne]
      exact ih hnd.2 h1

theorem alGet_eq_none_iff {α : Type} (m : List (String × α)) (k : String) :
    alGet m k = none ↔ k ∉ m.map Prod.fst := by
  induction m with
  | nil => simp [alGet]
  | cons p rest ih =>
    obtain ⟨pk, pv⟩ := p
    simp only [alGet, List.map_cons, List.mem_cons]
    by_cases hpk : pk = k
    · subst hpk
      simp
    · simp only [if_neg hpk, ih]
      constructor
      · intro h hc
        rcases hc with h1 | h1
        · exact hpk h1.symm
        · exact h h1
      · intro h h1
        exact h (Or.inr h1)

theorem mem_keys_alSet {α : Type} (m : List (String × α)) (key a : String) (v : α) :
    a ∈ (alSet m key v).map Prod.fst ↔ a ∈ m.map Prod.fst ∨ a = key := by
  induction m with
  | nil => simp [alSet]
  | cons p rest ih =>
    obtain ⟨pk, pv⟩ := p
    by_cases hpk : pk = key
    · subst hpk
      rw [show alSet ((pk, pv) :: rest) pk v = (pk, v) :: rest by simp [alSet]]
      simp only [List.map_cons, List.mem_cons]
      tauto
    · rw [show alSet ((pk, pv) :: rest) key v = (pk, pv) :: alSet rest key v by
        simp [alSet, hpk]]
      simp only [List.map_cons, List.mem_cons, ih]
      tauto

theorem nodupKeys_alSet {α : Type} (m : List (String × α)) (key : String) (v : α)
    (hnd : (m.map Prod.fst).Nodup) : ((alSet m key v).map Prod.fst).Nodup := by
  induction m with
  | nil => simp [alSet]
  | cons p rest ih =>
    obtain ⟨pk, pv⟩ := p
    simp only [List.map_cons, List.nodup_cons] at hnd
    by_cases hpk : pk = key
    · subst hpk
      rw [show alSet ((pk, pv) :: rest) pk v = (pk, v) :: rest by simp [alSet]]
      simp only [List.map_cons, List.nodup_cons]
      exact ⟨hnd.1, hnd.2⟩
    · rw [show alSet ((pk, pv) :: rest) key v = (pk, pv) :: alSet rest key v by
        simp [alSet, hpk]]
      simp only [List.map_cons, List.nodup_cons]
      refine ⟨?_, ih hnd.2⟩
      intro hmem
      rcases (mem_keys_alSet rest key pk v).mp hmem with h1 | h1
      · exact hnd.1 h1
      · exact hpk h1

theorem keys_alUpdate {α : Type} (m : List (String × α)) (key : String) (f : α → α) :
    (alUpdate m key f).map Prod.fst = m.map Prod.fst := by
  induction m with
  | nil => simp [alUpdate]
  | cons p rest ih =>
    obtain ⟨pk, pv⟩ := p
    by_cases hpk : pk = key
    · subst hpk
      rw [show alUpdate ((pk, pv) :: rest) pk f = (pk, f pv) :: rest by simp [alUpdate]]
      simp
    · rw [show alUpdate ((pk, pv) :: rest) key f = (pk, pv) :: alUpdate rest key f by
        simp [alUpdate, hpk]]
      simp [ih]

theorem nodupKeys_alUpdate {α : Type} (m : List (String × α)) (key : String) (f : α → α)
    (hnd : (m.map Prod.fst).Nodup) : ((alUpdate m key f).map Prod.fst).Nodup := by
  rw [keys_alUpdate]
  exact hnd

/-! ## Utility lemmas: dedupFirst, sortStable, list extrema, rounding -/

theorem mem_dedupFirstAux (seen l : List String) (a : String) :
    a ∈ dedupFirstAux seen l ↔ a ∈ l ∧ a ∉ seen := by
  induction l generalizing seen with
  | nil => simp [dedupFirstAux]
  | cons x xs ih =>
    simp only [dedupFirstAux]
    by_cases hx : x ∈ seen
    · rw [if_pos hx, ih]
      simp only [List.mem_cons]
      constructor
      · rintro ⟨h1, h2⟩
        exact ⟨Or.inr h1, h2⟩
      · rintro ⟨h1 | h1, h2⟩
        · subst h1
          exact absurd hx h2
        · exact ⟨h1, h2⟩
    · rw [if_neg hx]
      simp only [List.mem_cons, ih, List.mem_cons]
      constructor
      · rintro (h1 | ⟨h1, h2⟩)
        · subst h1
          exact ⟨Or.inl rfl, hx⟩
        · exact ⟨Or.inr h1, fun hs => h2 (Or.inr hs)⟩
      · rintro ⟨h1 | h1, h2⟩
        · exact Or.inl h1
        · by_cases hax : a = x
          · exact Or.inl hax
          · refine Or.inr ⟨h1, fun hs => ?_⟩
            rcases hs with h | h
            · exact hax h
            · exact h2 h

theorem dedupFirstAux_nodup (seen l : List String) : (dedupFirstAux seen l).Nodup := by
  induction l generalizing seen with
  | nil => simp [dedupFirstAux]
  | cons x xs ih =>
    simp only [dedupFirstAux]
    by_cases hx : x ∈ seen
    · rw [if_pos hx]
      exact ih seen
    · rw [if_neg hx]
      refine List.nodup_cons.mpr ⟨?_, ih (x :: seen)⟩
      intro hmem
      exact ((mem_dedupFirstAux _ _ _).mp hmem).2 (List.mem_cons_self _ _)

theorem mem_dedupFirst (l : List String) (a : String) : a ∈ dedupFirst l ↔ a ∈ l := by
  rw [dedupFirst, mem_dedupFirstAux]
  simp

theorem dedupFirst_nodup (l : List String) : (dedupFirst l).Nodup :=
  dedupFirstAux_nodup [] l

theorem dedupFirst_toFinset (l : List String) : (dedupFirst l).toFinset = l.toFinset := by
  ext a
  simp [List.mem_toFinset, mem_dedupFirst]

theorem uniqueCount_eq_card (l : List String) : uniqueCount l = l.toFinset.card := by
  rw [uniqueCount, ← dedupFirst_toFinset, List.toFinset_card_of_nodup (dedupFirst_nodup l)]

theorem uniqueCount_mono (S T : List String) (h : ∀ a ∈ S, a ∈ T) :
    uniqueCount S ≤ uniqueCount T := by
  rw [uniqueCount_eq_card, uniqueCount_eq_card]
  apply Finset.card_le_card
  intro a ha
  exact List.mem_toFinset.mpr (h a (List.mem_toFinset.mp ha))

theorem insStable_perm {α : Type} (prec : α → α → Bool) (x : α) (l : List α) :
    (insStable prec x l).Perm (x :: l) := by
  induction l with
  | nil => simp [insStable]
  | cons y l ih =>
    simp only [insStable]
    by_cases h : prec y x
    · rw [if_pos h]
      exact (List.Perm.cons y ih).trans (List.Perm.swap x y l)
    · rw [if_neg h]

theorem sortStable_perm {α : Type} (prec : α → α → Bool) (l : List α) :
    (sortStable prec l).Perm l := by
  induction l with
  | nil => simp [sortStable]
  | cons x xs ih =>
    exact (insStable_perm prec x (sortStable prec xs)).trans (List.Perm.cons x ih)

theorem mem_sortStable {α : Type} (prec : α → α → Bool) (l : List α) (a : α) :
    a ∈ sortStable prec l ↔ a ∈ l :=
  (sortStable_perm prec l).mem_iff

theorem insStable_sorted_time (x : Transaction) (l : List Transaction)
    (hs : l.Pairwise (fun u v => u.timestamp ≤ v.timestamp)) :
    (insStable (fun y x => y.timestamp < x.timestamp) x l).Pairwise
      (fun u v => u.timestamp ≤ v.timestamp) := by
  induction l with
  | nil => simp [insStable]
  | cons y l ih =>
    simp only [insStable]
    rcases List.pairwise_cons.mp hs with ⟨hy, hl⟩
    by_cases h : (decide (y.timestamp < x.timestamp) : Bool) = true
    · rw [if_pos h]
      refine List.pairwise_cons.mpr ⟨?_, ih hl⟩
      intro z hz
      rcases List.mem_cons.mp ((insStable_perm _ x l).mem_iff.mp hz) with h1 | h1
      · subst h1
        exact le_of_lt (of_decide_eq_true h)
      · exact hy z h1
    · rw [if_neg h]
      have hxy : x.timestamp ≤ y.timestamp := le_of_not_lt (of_decide_eq_false (by simpa using h))
      refine List.pairwise_cons.mpr ⟨?_, hs⟩
      intro z hz
      rcases List.mem_cons.mp hz with h1 | h1
      · subst h1
        exact hxy
      · exact le_trans hxy (hy z h1)

theorem sortByTime_sorted (txs : List Transaction) :
    (sortByTime txs).Pairwise (fun u v => u.timestamp ≤ v.timestamp) := by
  rw [sortByTime]
  induction txs with
  | nil => simp [sortStable]
  | cons x xs ih => exact insStable_sorted_time x _ ih

theorem foldl_add_nonneg (l : List Rat) :
    ∀ a : Rat, 0 ≤ a → (∀ x ∈ l, 0 ≤ x) → 0 ≤ l.foldl (· + ·) a := by
  induction l with
  | nil => intro a ha _; simpa
  | cons x xs ih =>
    intro a ha h
    simp only [List.foldl_cons]
    exact ih _ (add_nonneg ha (h x (List.mem_cons_self _ _)))
      (fun y hy => h y (List.mem_cons_of_mem _ hy))

theorem sumRat_nonneg (l : List Rat) (h : ∀ x ∈ l, 0 ≤ x) : 0 ≤ sumRat l :=
  foldl_add_nonneg l 0 le_rfl h

theorem foldl_add_le (l : List Rat) (c : Rat) :
    ∀ a : Rat, (∀ x ∈ l, x ≤ c) → l.foldl (· + ·) a ≤ a + c * l.length := by
  induction l with
  | nil => intro a _; simp
  | cons x xs ih =>
    intro a h
    simp only [List.foldl_cons, List.length_cons]
    have h1 := ih (a + x) (fun y hy => h y (List.mem_cons_of_mem _ hy))
    have h2 := h x (List.mem_cons_self _ _)
    have h3 : ((xs.length + 1 : Nat) : Rat) = (xs.length : Rat) + 1 := by push_cast; ring
    rw [h3]
    nlinarith [h1, h2]

theorem sumRat_le (l : List Rat) (c : Rat) (h : ∀ x ∈ l, x ≤ c) :
    sumRat l ≤ c * l.length := by
  have := foldl_add_le l c 0 h
  simpa [sumRat] using this

theorem foldl_max_le (l : List Rat) (c : Rat) :
    ∀ a : Rat, a ≤ c → (∀ x ∈ l, x ≤ c) → l.foldl max a ≤ c := by
  induction l with
  | nil => intro a ha _; simpa
  | cons x xs ih =>
    intro a ha h
    simp only [List.foldl_cons]
    exact ih _ (max_le ha (h x (List.mem_cons_self _ _)))
      (fun y hy => h y (List.mem_cons_of_mem _ hy))

theorem listMaxRat_le (l : List Rat) (c : Rat) (hc : 0 ≤ c) (h : ∀ x ∈ l, x ≤ c) :
    listMaxRat l ≤ c := by
  match l with
  | [] => simpa [listMaxRat]
  | x :: xs =>
    simp only [listMaxRat]
    exact foldl_max_le xs c x (h x (List.mem_cons_self _ _))
      (fun y hy => h y (List.mem_cons_of_mem _ hy))

theorem foldl_max_nonneg (l : List Rat) :
    ∀ a : Rat, 0 ≤ a → 0 ≤ l.foldl max a := by
  induction l with
  | nil => intro a ha; simpa
  | cons x xs ih =>
    intro a ha
    simp only [List.foldl_cons]
    exact ih _ (le_trans ha (le_max_left a x))

theorem listMaxRat_nonneg_of_mem (l : List Rat) (h : ∀ x ∈ l, 0 ≤ x) :
    0 ≤ listMaxRat l := by
  match l with
  | [] => simp [listMaxRat]
  | x :: xs =>
    simp only [listMaxRat]
    exact foldl_max_nonneg xs x (h x (List.mem_cons_self _ _))

theorem round1_nonneg (x : Rat) (h : 0 ≤ x) : 0 ≤ round1 x := by
  rw [round1, jsRound]
  have h1 : (0 : Int) ≤ Int.floor (x * 10 + 1 / 2) := by
    apply Int.le_floor.mpr
    push_cast
    linarith
  have h2 : (0 : Rat) ≤ (Int.floor (x * 10 + 1 / 2) : Rat) := by exact_mod_cast h1
  linarith

theorem round1_le_100 (x : Rat) (h : x ≤ 100) : round1 x ≤ 100 := by
  rw [round1, jsRound]
  have h1 : Int.floor (x * 10 + 1 / 2) < 1001 := by
    apply Int.floor_lt.mpr
    push_cast
    linarith
  have h2 : (Int.floor (x * 10 + 1 / 2) : Rat) ≤ 1000 := by
    exact_mod_cast Int.lt_add_one_iff.mp h1
  linarith

/-! ## Lexicographic string order: basic facts -/

theorem charListLt_irrefl (as : List Char) : charListLt as as = false := by
  induction as with
  | nil => rfl
  | cons a rest ih => simpa [charListLt] using ih

theorem charListLt_asymm (as : List Char) :
    ∀ bs, charListLt as bs = true → charListLt bs as = false := by
  induction as with
  | nil =>
    intro bs h
    cases bs with
    | nil => simp [charListLt] at h
    | cons b bs => rfl
  | cons a as ih =>
    intro bs h
    cases bs with
    | nil => simp [charListLt] at h
    | cons b bs =>
      simp only [charListLt] at h ⊢
      by_cases hab : a.toNat < b.toNat
      · rw [if_neg (by omega), if_pos hab]
      · rw [if_neg hab] at h
        by_cases hba : b.toNat < a.toNat
        · rw [if_pos hba] at h
          exact absurd h (by simp)
        · rw [if_neg hba] at h
          rw [if_neg hba, if_neg hab]
          exact ih bs h

theorem charListLt_trans (as : List Char) :
    ∀ bs cs, charListLt as bs = true → charListLt bs cs = true →
      charListLt as cs = true := by
  induction as with
  | nil =>
    intro bs cs h1 h2
    cases bs with
    | nil => simp [charListLt] at h1
    | cons b bs =>
      cases cs with
      | nil => simp [charListLt] at h2
      | cons c cs => rfl
  | cons a as ih =>
    intro bs cs h1 h2
    cases bs with
    | nil => simp [charListLt] at h1
    | cons b bs =>
      cases cs with
      | nil => simp [charListLt] at h2
      | cons c cs =>
        simp only [charListLt] at h1 h2 ⊢
        by_cases hab : a.toNat < b.toNat
        · by_cases hbc : b.toNat < c.toNat
          · rw [if_pos (by omega)]
          · rw [if_neg hbc] at h2
            by_cases hcb : c.toNat < b.toNat
            · rw [if_pos hcb] at h2
              exact absurd h2 (by simp)
            · rw [if_pos (by omega)]
        · rw [if_neg hab] at h1
          by_cases hba : b.toNat < a.toNat
          · rw [if_pos hba] at h1
            exact absurd h1 (by simp)
          · rw [if_neg hba] at h1
            by_cases hbc : b.toNat < c.toNat
            · rw [if_pos (by omega)]
            · rw [if_neg hbc] at h2
              by_cases hcb : c.toNat < b.toNat
              · rw [if_pos hcb] at h2
                exact absurd h2 (by simp)
              · rw [if_neg hcb] at h2
                rw [if_neg (by omega), if_neg (by omega)]
                exact ih bs cs h1 h2

theorem charListLt_connex (as : List Char) :
    ∀ bs, as ≠ bs → charListLt as bs = true ∨ charListLt bs as = true := by
  induction as with
  | nil =>
    intro bs h
    cases bs with
    | nil => exact absurd rfl h
    | cons b bs => exact Or.inl rfl
  | cons a as ih =>
    intro bs h
    cases bs with
    | nil => exact Or.inr rfl
    | cons b bs =>
      simp only [charListLt]
      by_cases hab : a.toNat < b.toNat
      · exact Or.inl (by rw [if_pos hab])
      · by_cases hba : b.toNat < a.toNat
        · exact Or.inr (by rw [if_pos hba])
        · have hcc : a = b :=
            Char.eq_of_val_eq (UInt32.ext (show a.toNat = b.toNat by omega))
          subst hcc
          have htail : as ≠ bs := by
            intro he
            exact h (by rw [he])
          rcases ih bs htail with h1 | h1
          · exact Or.inl (by rw [if_neg hab, if_neg hba]; exact h1)
          · exact Or.inr (by rw [if_neg hab, if_neg hba]; exact h1)

theorem strLt_irrefl (a : String) : strLt a a = false :=
  charListLt_irrefl a.data

theorem strLt_trans (a b c : String) (h1 : strLt a b = true) (h2 : strLt b c = true) :
    strLt a c = true :=
  charListLt_trans a.data b.data c.data h1 h2

theorem strLt_connex (a b : String) (h : a ≠ b) :
    strLt a b = true ∨ strLt b a = true := by
  refine charListLt_connex a.data b.data ?_
  intro he
  exact h (String.ext he)

/-! ## The list minimum under the string order -/

theorem foldl_minStr_mem (xs : List String) :
    ∀ a : String, xs.foldl (fun a b => if strLt a b then a else b) a ∈ a :: xs := by
  induction xs with
  | nil => intro a; simp
  | cons y ys ih =>
    intro a
    simp only [List.foldl_cons]
    by_cases h : strLt a y
    · rw [if_pos h]
      rcases List.mem_cons.mp (ih a) with h1 | h1
      · rw [h1]
        exact List.mem_cons_self _ _
      · exact List.mem_cons_of_mem _ (List.mem_cons_of_mem _ h1)
    · rw [if_neg h]
      rcases List.mem_cons.mp (ih y) with h1 | h1
      · rw [h1]
        exact List.mem_cons_of_mem _ (List.mem_cons_self _ _)
      · exact List.mem_cons_of_mem _ (List.mem_cons_of_mem _ h1)

theorem foldl_minStr_min (xs : List String) :
    ∀ a x : String, x ∈ a :: xs →
      strLt x (xs.foldl (fun a b => if strLt a b then a else b) a) = false := by
  induction xs with
  | nil =>
    intro a x hx
    rcases List.mem_cons.mp hx with h1 | h1
    · rw [h1]
      exact strLt_irrefl a
    · simp at h1
  | cons y ys ih =>
    intro a x hx
    simp only [List.foldl_cons]
    by_cases hay : strLt a y
    · rw [if_pos hay]
      rcases List.mem_cons.mp hx with h1 | h1
      · rw [h1]
        exact ih a a (List.mem_cons_self _ _)
      · rcases List.mem_cons.mp h1 with h2 | h2
        · subst h2
          by_contra hc
          rw [Bool.not_eq_false] at hc
          have h3 := strLt_trans a x _ hay hc
          have h4 := ih a a (List.mem_cons_self _ _)
          rw [h3] at h4
          exact Bool.noConfusion h4
        · exact ih a x (List.mem_cons_of_mem _ h2)
    · rw [if_neg hay]
      rcases List.mem_cons.mp hx with h1 | h1
      · subst h1
        by_contra hc
        rw [Bool.not_eq_false] at hc
        by_cases hxy : x = y
        · have h4 := ih y x (by rw [hxy]; exact List.mem_cons_self _ _)
          rw [hc] at h4
          exact Bool.noConfusion h4
        · rcases strLt_connex x y hxy with h3 | h3
          · exact absurd h3 (by simpa using hay)
          · have h5 := strLt_trans y x _ h3 hc
            have h4 := ih y y (List.mem_cons_self _ _)
            rw [h5] at h4
            exact Bool.noConfusion h4
      · exact ih y x h1

theorem listMinStr_mem (l : List String) (h : l ≠ []) : listMinStr l ∈ l := by
  match l with
  | [] => exact absurd rfl h
  | x :: xs => exact foldl_minStr_mem xs x

theorem listMinStr_min (l : List String) (x : String) (hx : x ∈ l) :
    strLt x (listMinStr l) = false := by
  match l with
  | [] => simp at hx
  | y :: ys => exact foldl_minStr_min ys y x hx

theorem listMinStr_perm (l1 l2 : List String) (h : l1.Perm l2) (hne : l1 ≠ []) :
    listMinStr l1 = listMinStr l2 := by
  have hne2 : l2 ≠ [] := by
    intro hc
    subst hc
    exact hne (List.Perm.eq_nil h)
  have hm1 := listMinStr_mem l1 hne
  have hm2 := listMinStr_mem l2 hne2
  by_contra hc
  rcases strLt_connex _ _ hc with h1 | h1
  · have h2 := listMinStr_min l2 (listMinStr l1) (h.mem_iff.mp hm1)
    rw [h1] at h2
    exact Bool.noConfusion h2
  · have h2 := listMinStr_min l1 (listMinStr l2) (h.mem_iff.mpr hm2)
    rw [h1] at h2
    exact Bool.noConfusion h2

/-! ## Index-of lemmas -/

theorem listIdxOf_lt_length (l : List String) (a : String) (h : a ∈ l) :
    listIdxOf l a < l.length := by
  induction l with
  | nil => simp at h
  | cons x xs ih =>
    simp only [listIdxOf, List.length_cons]
    by_cases hx : x = a
    · rw [if_pos hx]
      omega
    · rw [if_neg hx]
      have : a ∈ xs := by
        rcases List.mem_cons.mp h with h1 | h1
        · exact absurd h1.symm hx
        · exact h1
      have := ih this
      omega

theorem get_listIdxOf (l : List String) (a : String) (h : a ∈ l) :
    l.get ⟨listIdxOf l a, listIdxOf_lt_length l a h⟩ = a := by
  induction l with
  | nil => simp at h
  | cons x xs ih =>
    by_cases hx : x = a
    · simp only [listIdxOf, if_pos hx]
      exact hx
    · have hmem : a ∈ xs := by
        rcases List.mem_cons.mp h with h1 | h1
        · exact absurd h1.symm hx
        · exact h1
      have heq : listIdxOf (x :: xs) a = listIdxOf xs a + 1 := by
        simp [listIdxOf, hx]
      have := ih hmem
      simp only [heq] at *
      simpa using this

/-! ## Canonical rotation of a cycle -/

theorem getQ_listIdxOf (l : List String) (a : String) (h : a ∈ l) :
    l[listIdxOf l a]? = some a := by
  rw [List.getElem?_eq_getElem (listIdxOf_lt_length l a h)]
  exact congrArg some (get_listIdxOf l a h)

theorem rotate_head? (l : List String) (n : Nat) (h : n < l.length) :
    (l.rotate n).head? = l[n]? := by
  rw [List.rotate_eq_drop_append_take (le_of_lt h), List.head?_append, List.head?_drop]
  cases hx : l[n]? with
  | none =>
    rw [List.getElem?_eq_getElem h] at hx
    exact Option.noConfusion hx
  | some v => rfl

theorem canonRot_eq_rotate (c : List String) (hne : c ≠ []) :
    canonRot c = c.rotate (listIdxOf c (listMinStr c)) := by
  have hi : listIdxOf c (listMinStr c) < c.length :=
    listIdxOf_lt_length c _ (listMinStr_mem c hne)
  rw [canonRot]
  exact (List.rotate_eq_drop_append_take (le_of_lt hi)).symm

theorem canonRot_head? (c : List String) (hne : c ≠ []) :
    (canonRot c).head? = some (listMinStr c) := by
  have hi : listIdxOf c (listMinStr c) < c.length :=
    listIdxOf_lt_length c _ (listMinStr_mem c hne)
  rw [canonRot_eq_rotate c hne, rotate_head? c _ hi]
  exact getQ_listIdxOf c _ (listMinStr_mem c hne)

theorem nodup_getQ_inj (l : List String) (hnd : l.Nodup) (i j : Nat) (a : String)
    (hi : l[i]? = some a) (hj : l[j]? = some a) : i = j := by
  have hi' : i < l.length := by
    by_contra hc
    rw [List.getElem?_eq_none (by omega)] at hi
    exact Option.noConfusion hi
  have hj' : j < l.length := by
    by_contra hc
    rw [List.getElem?_eq_none (by omega)] at hj
    exact Option.noConfusion hj
  rw [List.getElem?_eq_getElem hi'] at hi
  rw [List.getElem?_eq_getElem hj'] at hj
  injection hi with hi
  injection hj with hj
  have heq : l.get ⟨i, hi'⟩ = l.get ⟨j, hj'⟩ := by
    show l[i] = l[j]
    rw [hi, hj]
  exact congrArg Fin.val ((List.Nodup.get_inj_iff hnd).mp heq)

theorem canonRot_rotate_eq (l : List String) (k : Nat) (hnd : l.Nodup) (hne : l ≠ []) :
    canonRot (l.rotate k) = canonRot l := by
  have hn : 0 < l.length := List.length_pos.mpr hne
  have hperm : (l.rotate k).Perm l := List.rotate_perm l k
  have hne2 : l.rotate k ≠ [] := by
    intro hc
    have hl := List.length_rotate l k
    rw [hc] at hl
    simp only [List.length_nil] at hl
    omega
  have hmin : listMinStr (l.rotate k) = listMinStr l := listMinStr_perm _ _ hperm hne2
  have hm_mem : listMinStr l ∈ l := listMinStr_mem l hne
  have hi1 : listIdxOf l (listMinStr l) < l.length := listIdxOf_lt_length l _ hm_mem
  have hr : (k + listIdxOf (l.rotate k) (listMinStr (l.rotate k))) % l.length < l.length :=
    Nat.mod_lt _ hn
  have e1 : canonRot (l.rotate k) =
      l.rotate ((k + listIdxOf (l.rotate k) (listMinStr (l.rotate k))) % l.length) := by
    rw [canonRot_eq_rotate _ hne2, List.rotate_rotate, ← List.rotate_mod]
  have hhead : l[(k + listIdxOf (l.rotate k) (listMinStr (l.rotate k))) % l.length]? =
      some (listMinStr l) := by
    rw [← rotate_head? l _ hr, ← e1, canonRot_head? _ hne2, hmin]
  have hidx : (k + listIdxOf (l.rotate k) (listMinStr (l.rotate k))) % l.length =
      listIdxOf l (listMinStr l) :=
    nodup_getQ_inj l hnd _ _ (listMinStr l) hhead (getQ_listIdxOf l _ hm_mem)
  rw [e1, hidx, ← canonRot_eq_rotate l hne]

/-- The canonical keys of rotation-equivalent duplicate-free cycles
agree. -/
theorem canonKey_rotate (l : List String) (k : Nat) (hnd : l.Nodup) (hne : l ≠ []) :
    canonKey (l.rotate k) = canonKey l := by
  rw [canonKey, canonKey, canonRot_rotate_eq l k hnd hne]

/-! ## Generic fold preservation -/

theorem foldl_preserves {α β : Type} (P : α → Prop) (f : α → β → α)
    (hf : ∀ a b, P a → P (f a b)) (l : List β) :
    ∀ a : α, P a → P (l.foldl f a) := by
  induction l with
  | nil => intro a h; exact h
  | cons x rest ih =>
    intro a h
    simp only [List.foldl_cons]
    exact ih _ (hf a x h)

/-! ## Score-map invariant -/

theorem mem_alSet_cases {α : Type} (m : List (String × α)) (key : String) (v : α)
    (kv : String × α) (h : kv ∈ alSet m key v) : kv ∈ m ∨ kv = (key, v) := by
  induction m with
  | nil => simpa [alSet] using h
  | cons p rest ih =>
    obtain ⟨pk, pv⟩ := p
    by_cases hpk : pk = key
    · subst hpk
      rw [show alSet ((pk, pv) :: rest) pk v = (pk, v) :: rest by simp [alSet]] at h
      rcases List.mem_cons.mp h with h1 | h1
      · exact Or.inr (by rw [h1])
      · exact Or.inl (List.mem_cons_of_mem _ h1)
    · rw [show alSet ((pk, pv) :: rest) key v = (pk, pv) :: alSet rest key v by
        simp [alSet, hpk]] at h
      rcases List.mem_cons.mp h with h1 | h1
      · exact Or.inl (by rw [h1]; exact List.mem_cons_self _ _)
      · rcases ih h1 with h2 | h2
        · exact Or.inl (List.mem_cons_of_mem _ h2)
        · exact Or.inr h2

theorem alGetD_nonneg (m : List (String × Rat)) (a : String)
    (h : ∀ kv ∈ m, 0 ≤ kv.2 ∧ kv.2 ≤ 100) : 0 ≤ alGetD m a 0 := by
  rw [alGetD]
  cases hg : alGet m a with
  | none => simp
  | some v =>
    simp only [Option.getD_some]
    exact (h (a, v) (alGet_mem m a v hg)).1

theorem addScoreStep_scoreInv (m : List (String × Rat)) (a : String) (pts : Rat)
    (hpts : 0 ≤ pts) (h : ScoreInvM m) : ScoreInvM (addScoreStep m a pts) := by
  constructor
  · exact nodupKeys_alSet m a _ h.1
  · intro kv hkv
    rcases mem_alSet_cases m a _ kv hkv with h1 | h1
    · exact h.2 kv h1
    · rw [h1]
      refine ⟨?_, ?_⟩
      · simp only
        exact le_min (by norm_num) (add_nonneg (alGetD_nonneg m a h.2) hpts)
      · simp only
        exact min_le_left _ _

theorem processCycle_scoreInv (st : DetState) (c : CycleResult)
    (h : ScoreInvM st.scores) : ScoreInvM (processCycle st c).scores := by
  unfold processCycle
  dsimp only
  exact foldl_preserves (fun s : DetState => ScoreInvM s.scores) _
    (fun s b hs => addScoreStep_scoreInv s.scores b 45 (by norm_num) hs) c.cycle _ h

theorem processSmurf_scoreInv (st : DetState) (smurf : SmurfResult)
    (h : ScoreInvM st.scores) : ScoreInvM (processSmurf st smurf).scores := by
  unfold processSmurf
  dsimp only
  have h1 : ScoreInvM (addScoreStep st.scores smurf.account 30) :=
    addScoreStep_scoreInv st.scores smurf.account 30 (by norm_num) h
  cases alGet st.ringMembership smurf.account with
  | some r => exact h1
  | none => exact h1

theorem processShell_scoreInv (st : DetState) (c : ShellChainResult)
    (h : ScoreInvM st.scores) : ScoreInvM (processShell st c).scores := by
  unfold processShell
  dsimp only
  have h1 : ScoreInvM ((c.chain.drop 1).dropLast.foldl (fun s account =>
      { s with scores := addScoreStep s.scores account 35,
               patterns := addPatternStep s.patterns account "shell_intermediary" }) st).scores :=
    foldl_preserves (fun s : DetState => ScoreInvM s.scores) _
      (fun s b hs => addScoreStep_scoreInv s.scores b 35 (by norm_num) hs) _ _ h
  have h2 := addScoreStep_scoreInv _ (c.chain.getLastD "") 20 (by norm_num)
    (addScoreStep_scoreInv _ (c.chain.getD 0 "") 20 (by norm_num) h1)
  cases alGet ((c.chain.drop 1).dropLast.foldl (fun s account =>
      { s with scores := addScoreStep s.scores account 35,
               patterns := addPatternStep s.patterns account "shell_intermediary" }) st).ringMembership
      (c.chain.getD 0 "") with
  | some r => exact h2
  | none => exact h2

theorem processBonus_scoreInv (transactions : List Transaction) (st : DetState) (account : String)
    (h : ScoreInvM st.scores) : ScoreInvM (processBonus transactions st account).scores := by
  unfold processBonus
  dsimp only
  have hb : ∀ st1 : DetState, ScoreInvM st1.scores →
      ScoreInvM (if hasHighVelocity account transactions then
        { st1 with scores := addScoreStep st1.scores account 10,
                   patterns := addPatternStep st1.patterns account "high_velocity" }
        else st1).scores := by
    intro st1 h1
    split
    · exact addScoreStep_scoreInv st1.scores account 10 (by norm_num) h1
    · exact h1
  cases alGet st.patterns account with
  | none => exact hb st h
  | some ps =>
    dsimp only
    by_cases h2 : 2 ≤ ps.length
    · rw [if_pos h2]
      exact hb _ (addScoreStep_scoreInv st.scores account 15 (by norm_num) h)
    · rw [if_neg h2]
      exact hb st h

theorem stateFinal_scoreInv (transactions : List Transaction) :
    ScoreInvM (stateFinal transactions).scores := by
  have h0 : ScoreInvM detState0.scores := by
    constructor
    · simp [detState0]
    · intro kv hkv
      simp [detState0] at hkv
  have h1 := foldl_preserves (fun s : DetState => ScoreInvM s.scores) processCycle
    (fun s b => processCycle_scoreInv s b) (detectCycles (buildGraph transactions)) detState0 h0
  have h2 := foldl_preserves (fun s : DetState => ScoreInvM s.scores) processSmurf
    (fun s b => processSmurf_scoreInv s b) (detectSmurfing transactions) _ h1
  have h3 := foldl_preserves (fun s : DetState => ScoreInvM s.scores) processShell
    (fun s b => processShell_scoreInv s b) (detectShellNetworks (buildGraph transactions)) _ h2
  exact foldl_preserves (fun s : DetState => ScoreInvM s.scores) (processBonus transactions)
    (fun s b => processBonus_scoreInv transactions s b)
    ((buildGraph transactions).map Prod.fst) _ h3

/-! ## Graph keys and the merchant test -/

theorem alHas_iff_mem_keys {α : Type} (m : List (String × α)) (k : String) :
    alHas m k = true ↔ k ∈ m.map Prod.fst := by
  rw [alHas, Option.isSome_iff_ne_none]
  constructor
  · intro h
    by_contra hc
    exact h ((alGet_eq_none_iff m k).mpr hc)
  · intro h hc
    exact (alGet_eq_none_iff m k).mp hc h

theorem mem_keys_ensureNode (nodes : Graph) (id a : String) :
    a ∈ (ensureNode nodes id).map Prod.fst ↔ a ∈ nodes.map Prod.fst ∨ a = id := by
  unfold ensureNode
  split
  · rename_i h
    constructor
    · exact Or.inl
    · rintro (h1 | h1)
      · exact h1
      · subst h1
        exact (alHas_iff_mem_keys nodes a).mp h
  · exact mem_keys_alSet nodes id a _

theorem mem_keys_buildGraphStep (nodes : Graph) (tx : Transaction) (a : String) :
    a ∈ (buildGraphStep nodes tx).map Prod.fst ↔
      a ∈ nodes.map Prod.fst ∨ a = tx.sender_id ∨ a = tx.receiver_id := by
  unfold buildGraphStep
  dsimp only
  rw [keys_alUpdate, keys_alUpdate, mem_keys_ensureNode, mem_keys_ensureNode]
  tauto

theorem mem_keys_buildGraph_fold (txs : List Transaction) :
    ∀ (nodes : Graph) (a : String),
      a ∈ ((txs.foldl buildGraphStep nodes).map Prod.fst) ↔
        a ∈ nodes.map Prod.fst ∨ ∃ t ∈ txs, t.sender_id = a ∨ t.receiver_id = a := by
  induction txs with
  | nil => intro nodes a; simp
  | cons tx rest ih =>
    intro nodes a
    simp only [List.foldl_cons]
    rw [ih]
    rw [mem_keys_buildGraphStep]
    constructor
    · rintro ((h1 | h1 | h1) | ⟨t, ht, hp⟩)
      · exact Or.inl h1
      · exact Or.inr ⟨tx, List.mem_cons_self _ _, Or.inl h1.symm⟩
      · exact Or.inr ⟨tx, List.mem_cons_self _ _, Or.inr h1.symm⟩
      · exact Or.inr ⟨t, List.mem_cons_of_mem _ ht, hp⟩
    · rintro (h1 | ⟨t, ht, hp⟩)
      · exact Or.inl (Or.inl h1)
      · rcases List.mem_cons.mp ht with h2 | h2
        · subst h2
          rcases hp with hp | hp
          · exact Or.inl (Or.inr (Or.inl hp.symm))
          · exact Or.inl (Or.inr (Or.inr hp.symm))
        · exact Or.inr ⟨t, h2, hp⟩

theorem mem_keys_buildGraph (txs : List Transaction) (a : String) :
    a ∈ (buildGraph txs).map Prod.fst ↔
      ∃ t ∈ txs, t.sender_id = a ∨ t.receiver_id = a := by
  rw [buildGraph, mem_keys_buildGraph_fold]
  simp

theorem accountTxs_nil_of_absent (txs : List Transaction) (a : String)
    (h : alGet (buildGraph txs) a = none) : accountTxs a txs = [] := by
  rw [alGet_eq_none_iff, mem_keys_buildGraph] at h
  rw [accountTxs, List.filter_eq_nil_iff]
  intro t ht
  simp only [Bool.or_eq_true, decide_eq_true_eq]
  intro hc
  exact h ⟨t, ht, hc⟩

theorem isMerchantLike_iff_spec (a : String) (txs : List Transaction) :
    isMerchantLike a (buildGraph txs) txs = true ↔ specMerchantLike a txs := by
  unfold isMerchantLike specMerchantLike
  cases hg : alGet (buildGraph txs) a with
  | none =>
    have hnil := accountTxs_nil_of_absent txs a hg
    rw [hnil]
    simp
  | some node =>
    dsimp only
    by_cases hlen : (accountTxs a txs).length < 20
    · rw [if_pos hlen]
      simp only [Bool.false_eq_true, false_iff, not_and]
      intro h20
      omega
    · rw [if_neg hlen]
      simp only [decide_eq_true_eq]
      constructor
      · intro hspan
        exact ⟨by omega, hspan⟩
      · intro h
        exact h.2

/-! ## Projections of the per-pass folds -/

theorem cycle_fold_proj (accountsL : List String) (ringId pat : String) :
    ∀ st : DetState,
      (accountsL.foldl (fun s account =>
        { s with scores := addScoreStep s.scores account 45,
                 patterns := addPatternStep s.patterns account pat,
                 ringMembership := alSet s.ringMembership account ringId }) st).ringMembership =
          accountsL.foldl (fun m x => alSet m x ringId) st.ringMembership ∧
      (accountsL.foldl (fun s account =>
        { s with scores := addScoreStep s.scores account 45,
                 patterns := addPatternStep s.patterns account pat,
                 ringMembership := alSet s.ringMembership account ringId }) st).fraudRings =
          st.fraudRings ∧
      (accountsL.foldl (fun s account =>
        { s with scores := addScoreStep s.scores account 45,
                 patterns := addPatternStep s.patterns account pat,
                 ringMembership := alSet s.ringMembership account ringId }) st).ringCounter =
          st.ringCounter := by
  induction accountsL with
  | nil => intro st; exact ⟨rfl, rfl, rfl⟩
  | cons x rest ih =>
    intro st
    simp only [List.foldl_cons]
    exact ih _

theorem shell_inner_fold_proj (accountsL : List String) :
    ∀ st : DetState,
      (accountsL.foldl (fun s account =>
        { s with scores := addScoreStep s.scores account 35,
                 patterns := addPatternStep s.patterns account "shell_intermediary" }) st).ringMembership =
          st.ringMembership ∧
      (accountsL.foldl (fun s account =>
        { s with scores := addScoreStep s.scores account 35,
                 patterns := addPatternStep s.patterns account "shell_intermediary" }) st).fraudRings =
          st.fraudRings ∧
      (accountsL.foldl (fun s account =>
        { s with scores := addScoreStep s.scores account 35,
                 patterns := addPatternStep s.patterns account "shell_intermediary" }) st).ringCounter =
          st.ringCounter := by
  induction accountsL with
  | nil => intro st; exact ⟨rfl, rfl, rfl⟩
  | cons x rest ih =>
    intro st
    simp only [List.foldl_cons]
    exact ih _

theorem fold_alSet_const (accountsL : List String) (ringId : String) :
    ∀ (m : List (String × String)) (a : String),
      alGet (accountsL.foldl (fun m x => alSet m x ringId) m) a =
        if a ∈ accountsL then some ringId else alGet m a := by
  induction accountsL with
  | nil => intro m a; simp
  | cons x rest ih =>
    intro m a
    simp only [List.foldl_cons]
    rw [ih]
    by_cases hr : a ∈ rest
    · rw [if_pos hr, if_pos (List.mem_cons_of_mem _ hr)]
    · rw [if_neg hr, alGet_alSet]
      by_cases hx : x = a
      · subst hx
        rw [if_pos rfl, if_pos (List.mem_cons_self _ _)]
      · rw [if_neg hx, if_neg (by
          intro hc
          rcases List.mem_cons.mp hc with h1 | h1
          · exact hx h1.symm
          · exact hr h1)]

/-! ## Ring-membership invariant (claim C10) -/

theorem processCycle_ringInv (st : DetState) (c : CycleResult) (h : RingInv st) :
    RingInv (processCycle st c) := by
  intro a rid hget
  unfold processCycle at hget ⊢
  obtain ⟨hm, hr, _⟩ := cycle_fold_proj c.cycle (ringName st.ringCounter)
    ("cycle_length_" ++ toString c.cycle.length) { st with ringCounter := st.ringCounter + 1 }
  rw [hm, fold_alSet_const] at hget
  by_cases hc : a ∈ c.cycle
  · rw [if_pos hc] at hget
    injection hget with hget
    refine ⟨_, List.mem_append_right _ (List.mem_singleton_self _), hget, ?_⟩
    exact (mem_dedupFirst _ _).mpr hc
  · rw [if_neg hc] at hget
    obtain ⟨ring, hring, hid, hmem⟩ := h a rid hget
    exact ⟨ring, List.mem_append_left _ (by rw [hr]; exact hring), hid, hmem⟩

theorem processSmurf_ringInv (st : DetState) (smurf : SmurfResult) (h : RingInv st) :
    RingInv (processSmurf st smurf) := by
  intro a rid hget
  unfold processSmurf at hget ⊢
  dsimp only at hget ⊢
  revert hget
  cases hm : alGet st.ringMembership smurf.account with
  | some r =>
    intro hget
    replace hget : alGet st.ringMembership a = some rid := hget
    obtain ⟨ring, hring, hid, hmem⟩ := h a rid hget
    exact ⟨ring, hring, hid, hmem⟩
  | none =>
    intro hget
    replace hget :
        alGet (alSet st.ringMembership smurf.account (ringName st.ringCounter)) a = some rid :=
      hget
    rw [alGet_alSet] at hget
    show ∃ ring ∈ st.fraudRings ++
        [{ ring_id := ringName st.ringCounter,
           member_accounts := smurf.account :: smurf.counterparties.take 20,
           pattern_type :=
             if smurf.type = SmurfType.fanIn then "smurfing_fan_in" else "smurfing_fan_out",
           risk_score := min 100 (30 + (smurf.counterparties.length : Rat) * (3 / 2)) }],
      ring.ring_id = rid ∧ a ∈ ring.member_accounts
    by_cases hc : smurf.account = a
    · rw [if_pos hc] at hget
      injection hget with hget
      refine ⟨_, List.mem_append_right _ (List.mem_singleton_self _), hget, ?_⟩
      rw [← hc]
      exact List.mem_cons_self _ _
    · rw [if_neg hc] at hget
      obtain ⟨ring, hring, hid, hmem⟩ := h a rid hget
      exact ⟨ring, List.mem_append_left _ hring, hid, hmem⟩

theorem processShell_ringInv (st : DetState) (c : ShellChainResult) (h : RingInv st) :
    RingInv (processShell st c) := by
  intro a rid hget
  unfold processShell at hget ⊢
  dsimp only at hget ⊢
  obtain ⟨hm1, hr1, _⟩ := shell_inner_fold_proj ((c.chain.drop 1).dropLast) st
  set st1 := (c.chain.drop 1).dropLast.foldl (fun s account =>
    { s with scores := addScoreStep s.scores account 35,
             patterns := addPatternStep s.patterns account "shell_intermediary" }) st with hst1
  revert hget
  cases hm : alGet st1.ringMembership (c.chain.getD 0 "") with
  | some r =>
    intro hget
    replace hget : alGet st1.ringMembership a = some rid := hget
    rw [hm1] at hget
    obtain ⟨ring, hring, hid, hmem⟩ := h a rid hget
    show ∃ ring ∈ st1.fraudRings, ring.ring_id = rid ∧ a ∈ ring.member_accounts
    exact ⟨ring, by rw [hr1]; exact hring, hid, hmem⟩
  | none =>
    intro hget
    replace hget :
        alGet (c.chain.foldl (fun m x => alSet m x (ringName st1.ringCounter)) st1.ringMembership)
          a = some rid := hget
    rw [fold_alSet_const, hm1] at hget
    show ∃ ring ∈ st1.fraudRings ++
        [{ ring_id := ringName st1.ringCounter,
           member_accounts := c.chain,
           pattern_type := "shell_chain",
           risk_score := min 100 (35 + (c.chain.length : Rat) * 5) }],
      ring.ring_id = rid ∧ a ∈ ring.member_accounts
    by_cases hc : a ∈ c.chain
    · rw [if_pos hc] at hget
      injection hget with hget
      exact ⟨_, List.mem_append_right _ (List.mem_singleton_self _), hget, hc⟩
    · rw [if_neg hc] at hget
      obtain ⟨ring, hring, hid, hmem⟩ := h a rid hget
      exact ⟨ring, List.mem_append_left _ (by rw [hr1]; exact hring), hid, hmem⟩

theorem processBonus_ringInv (transactions : List Transaction) (st : DetState) (account : String)
    (h : RingInv st) : RingInv (processBonus transactions st account) := by
  have hkeep : (processBonus transactions st account).ringMembership = st.ringMembership ∧
      (processBonus transactions st account).fraudRings = st.fraudRings := by
    unfold processBonus
    cases halg : alGet st.patterns account with
    | none =>
      dsimp only
      split
      · exact ⟨rfl, rfl⟩
      · exact ⟨rfl, rfl⟩
    | some ps =>
      dsimp only
      split
      · split
        · exact ⟨rfl, rfl⟩
        · exact ⟨rfl, rfl⟩
      · split
        · exact ⟨rfl, rfl⟩
        · exact ⟨rfl, rfl⟩
  intro a rid hget
  rw [hkeep.1] at hget
  obtain ⟨ring, hring, hid, hmem⟩ := h a rid hget
  exact ⟨ring, by rw [hkeep.2]; exact hring, hid, hmem⟩

theorem foldl_ringInv {β : Type} (f : DetState → β → DetState)
    (hf : ∀ st b, RingInv st → RingInv (f st b)) (l : List β) :
    ∀ st : DetState, RingInv st → RingInv (l.foldl f st) := by
  induction l with
  | nil => intro st h; exact h
  | cons x rest ih =>
    intro st h
    simp only [List.foldl_cons]
    exact ih _ (hf st x h)

theorem stateFinal_ringInv (transactions : List Transaction) :
    RingInv (stateFinal transactions) := by
  have h0 : RingInv detState0 := by
    intro a rid hget
    simp [detState0, alGet] at hget
  have h1 := foldl_ringInv processCycle processCycle_ringInv
    (detectCycles (buildGraph transactions)) detState0 h0
  have h2 := foldl_ringInv processSmurf processSmurf_ringInv
    (detectSmurfing transactions) _ h1
  have h3 := foldl_ringInv processShell processShell_ringInv
    (detectShellNetworks (buildGraph transactions)) _ h2
  exact foldl_ringInv (processBonus transactions)
    (fun st b => processBonus_ringInv transactions st b)
    ((buildGraph transactions).map Prod.fst) _ h3

theorem updateRingRisk_fields (accounts : List SuspiciousAccount) (ring : FraudRing) :
    (updateRingRisk accounts ring).ring_id = ring.ring_id ∧
      (updateRingRisk accounts ring).member_accounts = ring.member_accounts := by
  unfold updateRingRisk
  dsimp only
  split
  · exact ⟨rfl, rfl⟩
  · exact ⟨rfl, rfl⟩

theorem buildSuspicious_eq (nodes : Graph) (transactions : List Transaction)
    (scores : List (String × Rat)) (patterns : List (String × List String))
    (ringMembership : List (String × String)) :
    buildSuspicious nodes transactions scores patterns ringMembership =
      (scores.filter (fun kv => decide (keepEntry nodes transactions patterns kv))).map
        (mkSuspicious patterns ringMembership) := by
  unfold buildSuspicious
  suffices h : ∀ acc : List SuspiciousAccount,
      scores.foldl (fun acc kv =>
        if kv.2 ≤ 0 then acc
        else
          if ¬ hasMaliciousPattern ((alGet patterns kv.1).getD []) ∧
              isMerchantLike kv.1 nodes transactions then acc
          else acc ++
            [{ account_id := kv.1,
               suspicion_score := round1 kv.2,
               detected_patterns := (alGet patterns kv.1).getD [],
               ring_id := alGet ringMembership kv.1 }]) acc =
      acc ++ (scores.filter (fun kv => decide (keepEntry nodes transactions patterns kv))).map
        (mkSuspicious patterns ringMembership) by
    simpa using h []
  induction scores with
  | nil => intro acc; simp
  | cons kv rest ih =>
    intro acc
    simp only [List.foldl_cons, List.filter_cons]
    by_cases h1 : kv.2 ≤ 0
    · rw [if_pos h1]
      rw [show (decide (keepEntry nodes transactions patterns kv)) = false by
        simp [keepEntry, h1]]
      simp only [Bool.false_eq_true, if_false]
      exact ih acc
    · rw [if_neg h1]
      by_cases h2 : ¬ hasMaliciousPattern ((alGet patterns kv.1).getD []) ∧
          isMerchantLike kv.1 nodes transactions
      · rw [if_pos h2]
        rw [show (decide (keepEntry nodes transactions patterns kv)) = false by
          simp only [keepEntry, decide_eq_false_iff_not, not_and, not_not]
          intro _
          exact fun f => f h2.1 h2.2]
        simp only [Bool.false_eq_true, if_false]
        exact ih acc
      · rw [if_neg h2]
        rw [show (decide (keepEntry nodes transactions patterns kv)) = true by
          simp only [keepEntry, decide_eq_true_eq]
          exact ⟨h1, h2⟩]
        simp only [if_true, List.map_cons]
        rw [ih]
        simp [mkSuspicious]
      
/-! ## Cycle-detector invariant (claim C8) -/

theorem cycleDfs_inv (nodes : Graph) (start : String) :
    ∀ (fuel : Nat) (current : String) (path visited : List String) (acc : CycleAcc),
      path.Nodup → (∀ x ∈ path, x ∈ visited) → CycleInv acc →
      CycleInv (cycleDfs nodes start fuel current path visited acc) := by
  intro fuel
  induction fuel with
  | zero =>
    intro current path visited acc _ _ h
    exact h
  | succ fuel ih =>
    intro current path visited acc hnd hsub hinv
    rw [cycleDfs]
    cases halg : alGet nodes current with
    | none => exact hinv
    | some node =>
      refine foldl_preserves CycleInv _ ?_ node.outEdges acc hinv
      intro acc1 e h1
      dsimp only
      by_cases hrec : (decide (e.1 = start) && decide (3 ≤ path.length) &&
          decide (path.length ≤ 5)) = true
      · rw [if_pos hrec]
        simp only [Bool.and_eq_true, decide_eq_true_eq] at hrec
        by_cases hseen : canonKey path ∈ acc1.seen
        · rw [if_pos hseen]
          exact h1
        · rw [if_neg hseen]
          constructor
          · intro r hr
            rcases List.mem_append.mp hr with h2 | h2
            · obtain ⟨hb1, hb2, hb3, hb4⟩ := h1.1 r h2
              exact ⟨hb1, hb2, hb3, List.mem_append_left _ hb4⟩
            · rcases List.mem_singleton.mp h2 with rfl
              exact ⟨hrec.1.2, hrec.2, hnd,
                List.mem_append_right _ (List.mem_singleton_self _)⟩
          · rw [List.pairwise_append]
            refine ⟨h1.2, List.pairwise_singleton _ _, ?_⟩
            intro r1 hr1 r2 hr2
            rcases List.mem_singleton.mp hr2 with rfl
            intro hkey
            apply hseen
            rw [show canonKey (⟨path⟩ : CycleResult).cycle = canonKey path from rfl] at hkey
            rw [← hkey]
            exact (h1.1 r1 hr1).2.2.2
      · rw [if_neg hrec]
        by_cases hrec2 : e.1 ∉ visited ∧ path.length < 5
        · rw [if_pos hrec2]
          have hnp : e.1 ∉ path := fun hc => hrec2.1 (hsub e.1 hc)
          have hnd2 : (path ++ [e.1]).Nodup := by
            rw [List.nodup_append]
            refine ⟨hnd, List.nodup_singleton _, ?_⟩
            intro a ha hb
            rcases List.mem_singleton.mp hb with rfl
            exact hnp ha
          have hsub2 : ∀ x ∈ path ++ [e.1], x ∈ visited ++ [e.1] := by
            intro x hx
            rcases List.mem_append.mp hx with h2 | h2
            · exact List.mem_append_left _ (hsub x h2)
            · exact List.mem_append_right _ h2
          exact ih e.1 (path ++ [e.1]) (visited ++ [e.1]) acc1 hnd2 hsub2 h1
        · rw [if_neg hrec2]
          exact h1

theorem detectCycles_acc_inv (nodes : Graph) :
    CycleInv ((nodes.map Prod.fst).foldl
      (fun acc nodeId => cycleDfs nodes nodeId 5 nodeId [nodeId] [nodeId] acc)
      ⟨[], []⟩) := by
  refine foldl_preserves CycleInv _ ?_ _ _ ?_
  · intro acc b h
    refine cycleDfs_inv nodes b 5 b [b] [b] acc (List.nodup_singleton b) ?_ h
    intro x hx
    exact hx
  · constructor
    · intro r hr
      simp at hr
    · simp

/-! ## Score projections of the four passes (claim C5) -/

theorem foldl_add_shift (l : List Rat) : ∀ a : Rat, l.foldl (· + ·) a = a + l.foldl (· + ·) 0 := by
  induction l with
  | nil => intro a; simp
  | cons x xs ih =>
    intro a
    simp only [List.foldl_cons]
    rw [ih (a + x), ih (0 + x)]
    ring

theorem sumRat_cons (x : Rat) (l : List Rat) : sumRat (x :: l) = x + sumRat l := by
  rw [sumRat, sumRat, List.foldl_cons, foldl_add_shift]
  ring

theorem sumRat_nonneg_filterMap (events : List (String × Rat)) (a : String)
    (h : ∀ e ∈ events, 0 ≤ e.2) :
    0 ≤ sumRat ((events.filter (fun e => e.1 = a)).map Prod.snd) := by
  apply sumRat_nonneg
  intro x hx
  obtain ⟨e, he, hxe⟩ := List.mem_map.mp hx
  rw [← hxe]
  exact h e (List.mem_of_mem_filter he)

theorem alGet_addPatternStep_ne (patterns : List (String × List String)) (account pattern b : String)
    (hne : account ≠ b) :
    alGet (addPatternStep patterns account pattern) b = alGet patterns b := by
  rw [addPatternStep]
  cases alGet patterns account with
  | none =>
    rw [alGet_alSet, if_neg hne]
  | some ps =>
    dsimp only
    split
    · rfl
    · rw [alGet_alSet, if_neg hne]

theorem cycle_fold_scores (accountsL : List String) (ringId pat : String) :
    ∀ st : DetState,
      (accountsL.foldl (fun s account =>
        { s with scores := addScoreStep s.scores account 45,
                 patterns := addPatternStep s.patterns account pat,
                 ringMembership := alSet s.ringMembership account ringId }) st).scores =
        accountsL.foldl (fun m x => addScoreStep m x 45) st.scores := by
  induction accountsL with
  | nil => intro st; rfl
  | cons x rest ih =>
    intro st
    simp only [List.foldl_cons]
    exact ih _

theorem processCycle_scores (st : DetState) (c : CycleResult) :
    (processCycle st c).scores =
      (c.cycle.map (fun a => (a, (45 : Rat)))).foldl addScoreEv st.scores := by
  unfold processCycle
  dsimp only
  rw [cycle_fold_scores]
  rw [List.foldl_map]
  rfl

theorem processSmurf_scores (st : DetState) (smurf : SmurfResult) :
    (processSmurf st smurf).scores = addScoreStep st.scores smurf.account 30 := by
  unfold processSmurf
  dsimp only
  cases alGet st.ringMembership smurf.account with
  | some r => rfl
  | none => rfl

theorem shell_inner_fold_scores (accountsL : List String) :
    ∀ st : DetState,
      (accountsL.foldl (fun s account =>
        { s with scores := addScoreStep s.scores account 35,
                 patterns := addPatternStep s.patterns account "shell_intermediary" }) st).scores =
        accountsL.foldl (fun m x => addScoreStep m x 35) st.scores := by
  induction accountsL with
  | nil => intro st; rfl
  | cons x rest ih =>
    intro st
    simp only [List.foldl_cons]
    exact ih _

theorem processShell_scores (st : DetState) (c : ShellChainResult) :
    (processShell st c).scores =
      (((c.chain.drop 1).dropLast.map (fun a => (a, (35 : Rat)))) ++
        [(c.chain.getD 0 "", (20 : Rat)), (c.chain.getLastD "", (20 : Rat))]).foldl
          addScoreEv st.scores := by
  unfold processShell
  dsimp only
  rw [List.foldl_append]
  rw [List.foldl_map]
  have hinner := shell_inner_fold_scores ((c.chain.drop 1).dropLast) st
  cases alGet ((c.chain.drop 1).dropLast.foldl (fun s account =>
      { s with scores := addScoreStep s.scores account 35,
               patterns := addPatternStep s.patterns account "shell_intermediary" }) st).ringMembership
      (c.chain.getD 0 "") with
  | some r =>
    show addScoreStep (addScoreStep _ _ 20) _ 20 = _
    rw [hinner]
    rfl
  | none =>
    show addScoreStep (addScoreStep _ _ 20) _ 20 = _
    rw [hinner]
    rfl

theorem processBonus_scores (transactions : List Transaction) (st : DetState) (account : String) :
    (processBonus transactions st account).scores =
      (bonusScoreEventsOf transactions st.patterns account).foldl addScoreEv st.scores := by
  unfold processBonus bonusScoreEventsOf
  rw [List.foldl_append]
  cases alGet st.patterns account with
  | none =>
    dsimp only
    split
    · rfl
    · rfl
  | some ps =>
    dsimp only
    by_cases h2 : 2 ≤ ps.length
    · rw [if_pos h2, if_pos h2]
      split
      · rfl
      · rfl
    · rw [if_neg h2, if_neg h2]
      split
      · rfl
      · rfl

theorem processBonus_patterns_ne (transactions : List Transaction) (st : DetState)
    (account b : String) (hne : account ≠ b) :
    alGet (processBonus transactions st account).patterns b = alGet st.patterns b := by
  unfold processBonus
  cases alGet st.patterns account with
  | none =>
    dsimp only
    split
    · exact alGet_addPatternStep_ne _ _ _ _ hne
    · rfl
  | some ps =>
    dsimp only
    by_cases h2 : 2 ≤ ps.length
    · rw [if_pos h2]
      split
      · exact alGet_addPatternStep_ne _ _ _ _ hne
      · rfl
    · rw [if_neg h2]
      split
      · exact alGet_addPatternStep_ne _ _ _ _ hne
      · rfl

theorem cycles_fold_scores (cycles : List CycleResult) :
    ∀ st : DetState,
      (cycles.foldl processCycle st).scores =
        (cycleScoreEvents cycles).foldl addScoreEv st.scores := by
  induction cycles with
  | nil => intro st; rfl
  | cons c rest ih =>
    intro st
    simp only [List.foldl_cons]
    rw [ih, processCycle_scores]
    rw [show cycleScoreEvents (c :: rest) =
      (c.cycle.map (fun a => (a, (45 : Rat)))) ++ cycleScoreEvents rest from rfl]
    rw [List.foldl_append]

theorem smurfs_fold_scores (smurfs : List SmurfResult) :
    ∀ st : DetState,
      (smurfs.foldl processSmurf st).scores =
        (smurfScoreEvents smurfs).foldl addScoreEv st.scores := by
  induction smurfs with
  | nil => intro st; rfl
  | cons s rest ih =>
    intro st
    simp only [List.foldl_cons]
    rw [ih, processSmurf_scores]
    rfl

theorem shells_fold_scores (chains : List ShellChainResult) :
    ∀ st : DetState,
      (chains.foldl processShell st).scores =
        (shellScoreEvents chains).foldl addScoreEv st.scores := by
  induction chains with
  | nil => intro st; rfl
  | cons c rest ih =>
    intro st
    simp only [List.foldl_cons]
    rw [ih, processShell_scores]
    rw [show shellScoreEvents (c :: rest) =
      (((c.chain.drop 1).dropLast.map (fun a => (a, (35 : Rat)))) ++
        [(c.chain.getD 0 "", (20 : Rat)), (c.chain.getLastD "", (20 : Rat))]) ++
        shellScoreEvents rest from rfl]
    rw [List.foldl_append, List.foldl_append, List.foldl_append]

theorem bonus_fold_scores (transactions : List Transaction) (accountsL : List String) :
    ∀ (st : DetState) (patterns3 : List (String × List String)),
      accountsL.Nodup →
      (∀ a ∈ accountsL, alGet st.patterns a = alGet patterns3 a) →
      (accountsL.foldl (processBonus transactions) st).scores =
        ((accountsL.map (bonusScoreEventsOf transactions patterns3)).flatten).foldl
          addScoreEv st.scores := by
  induction accountsL with
  | nil => intro st _ _ _; rfl
  | cons a rest ih =>
    intro st patterns3 hnd hpat
    simp only [List.foldl_cons, List.map_cons, List.flatten_cons, List.foldl_append]
    have hstep : (processBonus transactions st a).scores =
        (bonusScoreEventsOf transactions patterns3 a).foldl addScoreEv st.scores := by
      rw [processBonus_scores]
      congr 1
      rw [bonusScoreEventsOf, bonusScoreEventsOf, hpat a (List.mem_cons_self _ _)]
    rw [ih (processBonus transactions st a) patterns3 (List.nodup_cons.mp hnd).2 ?_, hstep]
    intro b hb
    have hab : a ≠ b := by
      intro he
      exact (List.nodup_cons.mp hnd).1 (he ▸ hb)
    rw [processBonus_patterns_ne transactions st a b hab]
    exact hpat b (List.mem_cons_of_mem _ hb)

theorem buildGraph_keys_nodup (transactions : List Transaction) :
    ((buildGraph transactions).map Prod.fst).Nodup := by
  rw [buildGraph]
  refine foldl_preserves (fun g : Graph => (g.map Prod.fst).Nodup) _ ?_ _ _ (by simp)
  intro g tx h
  unfold buildGraphStep ensureNode
  dsimp only
  apply nodupKeys_alUpdate
  apply nodupKeys_alUpdate
  split
  · split
    · exact h
    · exact nodupKeys_alSet _ _ _ h
  · split
    · exact nodupKeys_alSet _ _ _ h
    · exact nodupKeys_alSet _ _ _ (nodupKeys_alSet _ _ _ h)

theorem stateFinal_scores_eq_events (transactions : List Transaction) :
    (stateFinal transactions).scores = (scoreEvents transactions).foldl addScoreEv [] := by
  rw [stateFinal, scoreEvents]
  rw [bonus_fold_scores transactions _ _ _ (buildGraph_keys_nodup transactions)
    (fun a _ => rfl)]
  rw [List.foldl_append, List.foldl_append, List.foldl_append]
  congr 1
  rw [stateAfterShells, shells_fold_scores]
  congr 1
  rw [stateAfterSmurfs, smurfs_fold_scores]
  congr 1
  rw [stateAfterCycles, cycles_fold_scores]
  rfl

/-! ## Ring-membership preservation in the smurfing pass -/

theorem processSmurf_preserves_ring (st : DetState) (smurf : SmurfResult) (a rid : String)
    (h : alGet st.ringMembership a = some rid) :
    alGet (processSmurf st smurf).ringMembership a = some rid := by
  unfold processSmurf
  dsimp only
  cases hm : alGet st.ringMembership smurf.account with
  | some r =>
    exact h
  | none =>
    show alGet (alSet st.ringMembership smurf.account (ringName st.ringCounter)) a = some rid
    rw [alGet_alSet]
    have hne : smurf.account ≠ a := by
      intro he
      rw [he, h] at hm
      exact Option.noConfusion hm
    rw [if_neg hne]
    exact h

theorem smurf_foldl_preserves_ring (smurfs : List SmurfResult) :
    ∀ (st : DetState) (a rid : String), alGet st.ringMembership a = some rid →
      alGet ((smurfs.foldl processSmurf st).ringMembership) a = some rid := by
  induction smurfs with
  | nil => intro st a rid h; simpa
  | cons s rest ih =>
    intro st a rid h
    simp only [List.foldl_cons]
    exact ih _ a rid (processSmurf_preserves_ring st s a rid h)

/-! ## Nonempty identifier fields out of the row parser -/

theorem parseRow_ids (colIdx : String → Nat) (st : List Transaction × List ParseError)
    (iLine : Nat × String)
    (h : ∀ t ∈ st.1, t.transaction_id ≠ "" ∧ t.sender_id ≠ "" ∧ t.receiver_id ≠ "") :
    ∀ t ∈ (parseRow colIdx st iLine).1,
      t.transaction_id ≠ "" ∧ t.sender_id ≠ "" ∧ t.receiver_id ≠ "" := by
  intro t ht
  unfold parseRow at ht
  dsimp only at ht
  split at ht
  · exact h t ht
  · split at ht
    · exact h t ht
    · rename_i hids
      split at ht
      · exact h t ht
      · split at ht
        · exact h t ht
        · split at ht
          · exact h t ht
          · rcases List.mem_append.mp ht with h1 | h1
            · exact h t h1
            · rcases List.mem_singleton.mp h1 with rfl
              simp only [Bool.or_eq_true, decide_eq_true_eq, not_or] at hids
              exact ⟨hids.1.1, hids.1.2, hids.2⟩

theorem parseRows_foldl_ids (colIdx : String → Nat) (rows : List (Nat × String)) :
    ∀ (st : List Transaction × List ParseError),
      (∀ t ∈ st.1, t.transaction_id ≠ "" ∧ t.sender_id ≠ "" ∧ t.receiver_id ≠ "") →
      ∀ t ∈ (rows.foldl (parseRow colIdx) st).1,
        t.transaction_id ≠ "" ∧ t.sender_id ≠ "" ∧ t.receiver_id ≠ "" := by
  induction rows with
  | nil => intro st h; exact h
  | cons r rest ih =>
    intro st h
    simp only [List.foldl_cons]
    exact ih _ (parseRow_ids colIdx st r h)

/-! ## Clamped-sum characterization of the score fold (claim C5) -/

theorem scoreEvents_nonneg (transactions : List Transaction) :
    ∀ e ∈ scoreEvents transactions, 0 ≤ e.2 := by
  intro e he
  rw [scoreEvents] at he
  rcases List.mem_append.mp he with he | h
  · rcases List.mem_append.mp he with he | h
    · rcases List.mem_append.mp he with h | h
      · obtain ⟨l, hl, hel⟩ := List.mem_flatten.mp h
        obtain ⟨c, _, hlc⟩ := List.mem_map.mp hl
        rw [← hlc] at hel
        obtain ⟨x, _, hex⟩ := List.mem_map.mp hel
        rw [← hex]
        norm_num
      · obtain ⟨s, _, hes⟩ := List.mem_map.mp h
        rw [← hes]
        norm_num
    · obtain ⟨l, hl, hel⟩ := List.mem_flatten.mp h
      obtain ⟨c, _, hlc⟩ := List.mem_map.mp hl
      rw [← hlc] at hel
      rcases List.mem_append.mp hel with h2 | h2
      · obtain ⟨x, _, hex⟩ := List.mem_map.mp h2
        rw [← hex]
        norm_num
      · rcases List.mem_cons.mp h2 with h3 | h3
        · rw [h3]; norm_num
        · rcases List.mem_singleton.mp h3 with rfl
          norm_num
  · obtain ⟨l, hl, hel⟩ := List.mem_flatten.mp h
    obtain ⟨acct, _, hla⟩ := List.mem_map.mp hl
    rw [← hla, bonusScoreEventsOf] at hel
    rcases List.mem_append.mp hel with h2 | h2
    · revert h2
      cases alGet (stateAfterShells transactions).patterns acct with
      | none => intro h2; simp at h2
      | some ps =>
        intro h2
        replace h2 : e ∈ (if 2 ≤ ps.length then [(acct, (15 : Rat))] else []) := h2
        by_cases hlen : 2 ≤ ps.length
        · rw [if_pos hlen] at h2
          rcases List.mem_singleton.mp h2 with rfl
          norm_num
        · rw [if_neg hlen] at h2
          simp at h2
    · by_cases hv : hasHighVelocity acct transactions = true
      · rw [if_pos hv] at h2
        rcases List.mem_singleton.mp h2 with rfl
        norm_num
      · rw [if_neg hv] at h2
        simp at h2

theorem foldl_addScoreEv_get (a : String) (events : List (String × Rat)) :
    ∀ m : List (String × Rat), (∀ e ∈ events, 0 ≤ e.2) → alGetD m a 0 ≤ 100 →
      alGetD (events.foldl addScoreEv m) a 0 =
        min 100 (alGetD m a 0 +
          sumRat ((events.filter (fun e => e.1 = a)).map Prod.snd)) := by
  induction events with
  | nil =>
    intro m _ hle
    simp only [List.foldl_nil, List.filter_nil, List.map_nil]
    rw [show sumRat [] = 0 from rfl, add_zero, min_eq_right hle]
  | cons e rest ih =>
    intro m hnn hle
    have hrest : ∀ x ∈ rest, 0 ≤ x.2 := fun x hx => hnn x (List.mem_cons_of_mem _ hx)
    simp only [List.foldl_cons]
    by_cases hk : e.1 = a
    · have hval : alGetD (addScoreEv m e) a 0 = min 100 (alGetD m a 0 + e.2) := by
        rw [addScoreEv, addScoreStep, alGetD, hk, alGet_alSet, if_pos rfl, Option.getD_some]
      have hm' : alGetD (addScoreEv m e) a 0 ≤ 100 := by
        rw [hval]; exact min_le_left _ _
      rw [ih (addScoreEv m e) hrest hm', hval,
        List.filter_cons_of_pos (by simpa using hk), List.map_cons, sumRat_cons]
      have hS : 0 ≤ sumRat ((rest.filter (fun e => e.1 = a)).map Prod.snd) :=
        sumRat_nonneg_filterMap rest a hrest
      rcases le_total (alGetD m a 0 + e.2) 100 with h | h
      · rw [min_eq_right h, add_assoc]
      · rw [min_eq_left h, min_eq_left (by linarith), min_eq_left (by linarith)]
    · have hval : alGetD (addScoreEv m e) a 0 = alGetD m a 0 := by
        rw [addScoreEv, addScoreStep, alGetD, alGet_alSet, if_neg hk, alGetD]
      rw [ih (addScoreEv m e) hrest (by rw [hval]; exact hle), hval,
        List.filter_cons_of_neg (by simpa using hk)]

theorem stateFinal_score_clamped (transactions : List Transaction) (a : String) :
    alGetD (stateFinal transactions).scores a 0 = min 100 (awardSum a transactions) := by
  have h0 : alGetD ([] : List (String × Rat)) a 0 = 0 := rfl
  rw [stateFinal_scores_eq_events,
    foldl_addScoreEv_get a _ [] (scoreEvents_nonneg transactions) (by rw [h0]; norm_num),
    h0, zero_add, awardSum]

/-! ## Sliding-window analysis of the smurfing scan (claim C6) -/

theorem countEvictW_le_length (w rts : Int) (s : List Transaction) :
    countEvictW w rts s ≤ s.length := by
  induction s with
  | nil => simp [countEvictW]
  | cons t ts ih =>
    rw [countEvictW]
    split
    · simp only [List.length_cons]
      omega
    · simp

theorem countEvictW_le_of_keep (w rts : Int) (s : List Transaction) (i : Nat)
    (hi : i < s.length) (hkeep : ¬(rts - (s.getD i default).timestamp > w)) :
    countEvictW w rts s ≤ i := by
  induction s generalizing i with
  | nil => simp at hi
  | cons t ts ih =>
    rw [countEvictW]
    split
    · rename_i hev
      cases i with
      | zero =>
        rw [List.getD_cons_zero] at hkeep
        exact absurd hev hkeep
      | succ j =>
        rw [List.getD_cons_succ] at hkeep
        simp only [List.length_cons] at hi
        have := ih j (by omega) hkeep
        omega
    · omega

theorem countEvictW_drop (w rts : Int) (s : List Transaction) :
    ∀ p, p ≤ countEvictW w rts s →
      p + countEvictW w rts (s.drop p) = countEvictW w rts s := by
  induction s with
  | nil =>
    intro p hp
    simp [countEvictW] at hp
    simp [hp, countEvictW]
  | cons t ts ih =>
    intro p hp
    cases p with
    | zero => simp
    | succ q =>
      rw [countEvictW] at hp ⊢
      split at hp
      · rename_i hev
        rw [if_pos hev, List.drop_succ_cons]
        have := ih q (by omega)
        omega
      · omega

theorem countEvictW_mono (w rts rts' : Int) (h : rts ≤ rts') (s : List Transaction) :
    countEvictW w rts s ≤ countEvictW w rts' s := by
  induction s with
  | nil => simp [countEvictW]
  | cons t ts ih =>
    rw [countEvictW, countEvictW]
    split
    · rename_i hev
      rw [if_pos (by omega : rts' - t.timestamp > w)]
      omega
    · exact Nat.zero_le _

theorem countEvictW_keep (w rts : Int) (s : List Transaction)
    (h : countEvictW w rts s < s.length) :
    ¬(rts - (s.getD (countEvictW w rts s) default).timestamp > w) := by
  induction s with
  | nil => simp at h
  | cons t ts ih =>
    by_cases hev : rts - t.timestamp > w
    · rw [countEvictW, if_pos hev] at h ⊢
      rw [List.getD_cons_succ]
      simp only [List.length_cons] at h
      exact ih (by omega)
    · rw [countEvictW, if_neg hev] at h ⊢
      rw [List.getD_cons_zero]
      exact hev

theorem sorted_getD_mono (s : List Transaction)
    (hs : s.Pairwise (fun u v => u.timestamp ≤ v.timestamp))
    (i j : Nat) (hij : i ≤ j) (hj : j < s.length) :
    (s.getD i default).timestamp ≤ (s.getD j default).timestamp := by
  rcases Nat.lt_or_ge i j with hlt | hge
  · have hi : i < s.length := lt_trans hlt hj
    rw [List.getD_eq_getElem s default hi, List.getD_eq_getElem s default hj]
    have := List.pairwise_iff_get.mp hs ⟨i, hi⟩ ⟨j, hj⟩ (by simpa [Fin.lt_def] using hlt)
    simpa using this
  · rw [le_antisymm hij hge]

theorem leftMin_le (s : List Transaction) (r : Nat) (hr : r < s.length) : leftMin s r ≤ r := by
  rw [leftMin, countEvict]
  apply countEvictW_le_of_keep _ _ _ r hr
  have hW : (0 : Int) ≤ SMURF_WINDOW_MS := by norm_num [SMURF_WINDOW_MS]
  omega

theorem leftMin_span (s : List Transaction) (r : Nat) (hr : r < s.length) :
    (s.getD r default).timestamp - (s.getD (leftMin s r) default).timestamp ≤
      SMURF_WINDOW_MS := by
  have h := countEvictW_keep SMURF_WINDOW_MS (s.getD r default).timestamp s
    (lt_of_le_of_lt (leftMin_le s r hr) hr)
  rw [leftMin, countEvict]
  omega

theorem leftMin_le_of_inWindow (s : List Transaction) (r i : Nat) (hi : i < s.length)
    (t0 : Int) (h1 : t0 ≤ (s.getD i default).timestamp)
    (h2 : (s.getD r default).timestamp ≤ t0 + SMURF_WINDOW_MS) :
    leftMin s r ≤ i := by
  rw [leftMin, countEvict]
  exact countEvictW_le_of_keep _ _ s i hi (by omega)

theorem mem_windowAt (s : List Transaction) (r i : Nat) (h1 : leftMin s r ≤ i) (h2 : i ≤ r)
    (h3 : i < s.length) : s.getD i default ∈ windowAt s r := by
  rw [windowAt]
  have hlen : i - leftMin s r <
      ((s.drop (leftMin s r)).take (r + 1 - leftMin s r)).length := by
    rw [List.length_take, List.length_drop]
    omega
  rw [List.mem_iff_getElem]
  refine ⟨i - leftMin s r, hlen, ?_⟩
  rw [List.getElem_take, List.getElem_drop]
  rw [List.getD_eq_getElem s default h3]
  have hidx : leftMin s r + (i - leftMin s r) = i := by omega
  simp only [hidx]

theorem windowAt_mem (s : List Transaction) (r : Nat) (x : Transaction)
    (hx : x ∈ windowAt s r) :
    ∃ i, leftMin s r ≤ i ∧ i ≤ r ∧ i < s.length ∧ s.getD i default = x := by
  rw [windowAt, List.mem_iff_getElem] at hx
  obtain ⟨j, hj, hxe⟩ := hx
  have hjl := hj
  rw [List.length_take, List.length_drop] at hjl
  refine ⟨leftMin s r + j, Nat.le_add_right _ _, by omega, by omega, ?_⟩
  rw [List.getElem_take, List.getElem_drop] at hxe
  rw [List.getD_eq_getElem s default (by omega)]
  exact hxe

theorem smurfScanState_succ (s : List Transaction) (getParty : Transaction → String) (k : Nat) :
    smurfScanState s getParty (k + 1) =
      smurfStep s getParty (smurfScanState s getParty k) k := by
  rw [smurfScanState, smurfScanState, List.range_succ, List.foldl_append, List.foldl_cons,
    List.foldl_nil]

theorem smurfScanState_inv (s : List Transaction) (getParty : Transaction → String)
    (hs : s.Pairwise (fun u v => u.timestamp ≤ v.timestamp)) :
    ∀ k, k ≤ s.length →
      ((smurfScanState s getParty k).2.isSome = true ↔
        ∃ r, r < k ∧ QualifiesAt s getParty r) ∧
      ((smurfScanState s getParty k).2 = none →
        (smurfScanState s getParty k).1 = if k = 0 then 0 else leftMin s (k - 1)) := by
  intro k
  induction k with
  | zero =>
    intro _
    refine ⟨?_, ?_⟩
    · rw [show smurfScanState s getParty 0 = (0, none) from rfl]
      simp
    · intro _
      rw [show smurfScanState s getParty 0 = (0, none) from rfl]
      simp
  | succ k ih =>
    intro hk1
    obtain ⟨ihiff, ihleft⟩ := ih (by omega)
    have hk : k < s.length := by omega
    rcases hpair : smurfScanState s getParty k with ⟨l0, o0⟩
    rw [hpair] at ihiff ihleft
    rw [smurfScanState_succ, hpair]
    cases o0 with
    | some w =>
      rw [show smurfStep s getParty (l0, some w) k = (l0, some w) from rfl]
      refine ⟨?_, ?_⟩
      · simp only [Option.isSome_some, true_iff]
        obtain ⟨r, hr, hq⟩ := ihiff.mp rfl
        exact ⟨r, by omega, hq⟩
      · intro hnone
        simp at hnone
    | none =>
      have hL : l0 + countEvict (s.getD k default).timestamp (s.drop l0) = leftMin s k := by
        rw [leftMin, countEvict, countEvict]
        apply countEvictW_drop
        have hl0 : l0 = if k = 0 then 0 else leftMin s (k - 1) := by
          simpa using ihleft rfl
        by_cases hk0 : k = 0
        · rw [hl0, if_pos hk0]
          exact Nat.zero_le _
        · rw [hl0, if_neg hk0, leftMin, countEvict]
          exact countEvictW_mono _ _ _
            (sorted_getD_mono s hs (k - 1) k (by omega) hk) s
      rw [show smurfStep s getParty (l0, none) k =
          (if SMURF_THRESHOLD ≤ (dedupFirst
              (((s.drop (l0 + countEvict (s.getD k default).timestamp (s.drop l0))).take
                (k + 1 - (l0 + countEvict (s.getD k default).timestamp (s.drop l0)))).map
                getParty)).length
           then (l0 + countEvict (s.getD k default).timestamp (s.drop l0),
             some (dedupFirst
              (((s.drop (l0 + countEvict (s.getD k default).timestamp (s.drop l0))).take
                (k + 1 - (l0 + countEvict (s.getD k default).timestamp (s.drop l0)))).map
                getParty)))
           else (l0 + countEvict (s.getD k default).timestamp (s.drop l0), none)) from rfl]
      rw [hL]
      rw [show (s.drop (leftMin s k)).take (k + 1 - leftMin s k) = windowAt s k from rfl]
      by_cases hthr : SMURF_THRESHOLD ≤ (dedupFirst ((windowAt s k).map getParty)).length
      · rw [if_pos hthr]
        refine ⟨?_, ?_⟩
        · simp only [Option.isSome_some, true_iff]
          exact ⟨k, by omega, hthr⟩
        · intro hnone
          simp at hnone
      · rw [if_neg hthr]
        refine ⟨?_, ?_⟩
        · constructor
          · intro hfalse
            simp at hfalse
          · rintro ⟨r, hr, hq⟩
            rcases Nat.lt_succ_iff_lt_or_eq.mp hr with h | rfl
            · have := ihiff.mpr ⟨r, h, hq⟩
              simp at this
            · exact absurd hq hthr
        · intro _
          simp

theorem smurfScan_isSome_iff (getParty : Transaction → String) (txs : List Transaction) :
    (smurfScan getParty txs).isSome = true ↔
      ∃ r, r < (sortByTime txs).length ∧ QualifiesAt (sortByTime txs) getParty r :=
  (smurfScanState_inv (sortByTime txs) getParty (sortByTime_sorted txs)
    (sortByTime txs).length le_rfl).1

theorem uniqueCount_perm (S T : List String) (h : S.Perm T) : uniqueCount S = uniqueCount T :=
  le_antisymm (uniqueCount_mono S T fun _ ha => h.subset ha)
    (uniqueCount_mono T S fun _ ha => h.symm.subset ha)

theorem qualifies_window_sub (s : List Transaction)
    (hs : s.Pairwise (fun u v => u.timestamp ≤ v.timestamp))
    (getParty : Transaction → String) (r : Nat) (hr : r < s.length)
    (hq : QualifiesAt s getParty r) :
    ∃ t0 : Int, SMURF_THRESHOLD ≤ uniqueCount
      ((s.filter (fun t => t0 ≤ t.timestamp ∧ t.timestamp ≤ t0 + SMURF_WINDOW_MS)).map
        getParty) := by
  refine ⟨(s.getD (leftMin s r) default).timestamp, ?_⟩
  have hspan := leftMin_span s r hr
  refine le_trans hq (uniqueCount_mono _ _ ?_)
  intro x hx
  obtain ⟨y, hy, hxy⟩ := List.mem_map.mp hx
  obtain ⟨i, hli, hir, hin, hyi⟩ := windowAt_mem s r y hy
  refine List.mem_map.mpr ⟨y, List.mem_filter.mpr ⟨?_, ?_⟩, hxy⟩
  · rw [← hyi, List.getD_eq_getElem s default hin]
    exact List.getElem_mem hin
  · rw [← hyi]
    have h1 : (s.getD (leftMin s r) default).timestamp ≤ (s.getD i default).timestamp :=
      sorted_getD_mono s hs (leftMin s r) i hli hin
    have h2 : (s.getD i default).timestamp ≤ (s.getD r default).timestamp :=
      sorted_getD_mono s hs i r hir hr
    simp only [decide_eq_true_eq]
    exact ⟨h1, by omega⟩

theorem window_qualifies (s : List Transaction)
    (_hs : s.Pairwise (fun u v => u.timestamp ≤ v.timestamp))
    (getParty : Transaction → String) (t0 : Int)
    (h : SMURF_THRESHOLD ≤ uniqueCount
      ((s.filter (fun t => t0 ≤ t.timestamp ∧ t.timestamp ≤ t0 + SMURF_WINDOW_MS)).map
        getParty)) :
    ∃ r, r < s.length ∧ QualifiesAt s getParty r := by
  have hne : (s.filter (fun t => t0 ≤ t.timestamp ∧ t.timestamp ≤ t0 + SMURF_WINDOW_MS)) ≠
      [] := by
    intro hempty
    rw [hempty] at h
    rw [show uniqueCount (List.map getParty []) = 0 from rfl, SMURF_THRESHOLD] at h
    omega
  obtain ⟨y, hy⟩ := List.exists_mem_of_ne_nil _ hne
  have hy' := List.mem_filter.mp hy
  obtain ⟨i0, hi0, hyi0⟩ := List.mem_iff_getElem.mp hy'.1
  have hP0 : i0 < s.length ∧ t0 ≤ (s.getD i0 default).timestamp ∧
      (s.getD i0 default).timestamp ≤ t0 + SMURF_WINDOW_MS := by
    refine ⟨hi0, ?_, ?_⟩ <;>
      · rw [List.getD_eq_getElem s default hi0, hyi0]
        have := hy'.2
        simp only [decide_eq_true_eq] at this
        omega
  have hfg := Nat.findGreatest_spec (m := i0)
    (n := s.length - 1)
    (P := fun i => i < s.length ∧ t0 ≤ (s.getD i default).timestamp ∧
      (s.getD i default).timestamp ≤ t0 + SMURF_WINDOW_MS)
    (by omega) hP0
  refine ⟨Nat.findGreatest _ (s.length - 1), hfg.1, ?_⟩
  rw [QualifiesAt]
  refine le_trans h (uniqueCount_mono _ _ ?_)
  intro x hx
  obtain ⟨y', hy1, hxy⟩ := List.mem_map.mp hx
  have hy2 := List.mem_filter.mp hy1
  obtain ⟨i, hi, hyi⟩ := List.mem_iff_getElem.mp hy2.1
  have hPi : i < s.length ∧ t0 ≤ (s.getD i default).timestamp ∧
      (s.getD i default).timestamp ≤ t0 + SMURF_WINDOW_MS := by
    refine ⟨hi, ?_, ?_⟩ <;>
      · rw [List.getD_eq_getElem s default hi, hyi]
        have := hy2.2
        simp only [decide_eq_true_eq] at this
        omega
  have hir := Nat.le_findGreatest (n := s.length - 1) (m := i)
    (P := fun j => j < s.length ∧ t0 ≤ (s.getD j default).timestamp ∧
      (s.getD j default).timestamp ≤ t0 + SMURF_WINDOW_MS)
    (by omega) hPi
  have hlm := leftMin_le_of_inWindow s _ i hi t0 hPi.2.1 hfg.2.2
  refine List.mem_map.mpr ⟨y', ?_, hxy⟩
  rw [← hyi, ← List.getD_eq_getElem s default hi]
  exact mem_windowAt s _ i hlm hir hi

theorem qualifies_iff_window (txs : List Transaction) (getParty : Transaction → String) :
    (∃ r, r < (sortByTime txs).length ∧ QualifiesAt (sortByTime txs) getParty r) ↔
      ∃ t0 : Int, SMURF_THRESHOLD ≤ uniqueCount
        ((txs.filter (fun t => t0 ≤ t.timestamp ∧ t.timestamp ≤ t0 + SMURF_WINDOW_MS)).map
          getParty) := by
  have hperm : ∀ t0 : Int,
      uniqueCount (((sortByTime txs).filter
        (fun t => t0 ≤ t.timestamp ∧ t.timestamp ≤ t0 + SMURF_WINDOW_MS)).map getParty) =
      uniqueCount ((txs.filter
        (fun t => t0 ≤ t.timestamp ∧ t.timestamp ≤ t0 + SMURF_WINDOW_MS)).map getParty) :=
    fun t0 => uniqueCount_perm _ _ (((sortStable_perm _ txs).filter _).map getParty)
  constructor
  · rintro ⟨r, hr, hq⟩
    obtain ⟨t0, ht0⟩ := qualifies_window_sub (sortByTime txs) (sortByTime_sorted txs)
      getParty r hr hq
    exact ⟨t0, by rw [← hperm t0]; exact ht0⟩
  · rintro ⟨t0, ht0⟩
    exact window_qualifies (sortByTime txs) (sortByTime_sorted txs) getParty t0
      (by rw [hperm t0]; exact ht0)

theorem alGet_append_single {α : Type} (m : List (String × α)) (k a : String) (v : α) :
    alGet (m ++ [(k, v)]) a =
      match alGet m a with
      | some w => some w
      | none => if k = a then some v else none := by
  induction m with
  | nil => simp [alGet]
  | cons p rest ih =>
    obtain ⟨pk, pv⟩ := p
    by_cases h : pk = a
    · simp [alGet, h]
    · simp only [List.cons_append, alGet, if_neg h]
      exact ih

theorem alGet_groupPush (m : List (String × List Transaction)) (k : String) (tx : Transaction)
    (a : String) :
    alGet (groupPush m k tx) a =
      if k = a then
        match alGet m a with
        | some g => some (g ++ [tx])
        | none => some [tx]
      else alGet m a := by
  rw [groupPush]
  by_cases hhas : alHas m k
  · rw [if_pos hhas, alGet_alUpdate]
    by_cases hka : k = a
    · rw [if_pos hka, if_pos hka]
      subst hka
      rw [alHas] at hhas
      cases hg : alGet m k with
      | none => rw [hg] at hhas; simp at hhas
      | some g => simp
    · rw [if_neg hka, if_neg hka]
  · rw [if_neg hhas, alGet_append_single]
    by_cases hka : k = a
    · subst hka
      rw [alHas] at hhas
      cases hg : alGet m k with
      | some g => rw [hg] at hhas; simp at hhas
      | none => simp
    · cases hg : alGet m a with
      | some g => simp [hka]
      | none => simp [hka]

theorem keys_groupPush (m : List (String × List Transaction)) (k : String) (tx : Transaction) :
    (groupPush m k tx).map Prod.fst =
      if alHas m k then m.map Prod.fst else m.map Prod.fst ++ [k] := by
  rw [groupPush]
  by_cases hhas : alHas m k
  · rw [if_pos hhas, if_pos hhas, keys_alUpdate]
  · rw [if_neg hhas, if_neg hhas, List.map_append]
    rfl

theorem groupPush_keys_nodup (m : List (String × List Transaction)) (k : String)
    (tx : Transaction) (h : (m.map Prod.fst).Nodup) :
    ((groupPush m k tx).map Prod.fst).Nodup := by
  rw [keys_groupPush]
  by_cases hhas : alHas m k
  · rw [if_pos hhas]; exact h
  · rw [if_neg hhas, List.nodup_append]
    refine ⟨h, List.nodup_singleton k, ?_⟩
    intro a ha hb
    rcases List.mem_singleton.mp hb with rfl
    have hnone : alGet m a = none := by
      cases hg : alGet m a with
      | none => rfl
      | some v => rw [alHas, hg] at hhas; simp at hhas
    exact (alGet_eq_none_iff m a).mp hnone ha

theorem alGet_groupFold (proj : Transaction → String) (txs : List Transaction) :
    ∀ (m : List (String × List Transaction)) (a : String),
      alGet (txs.foldl (fun m tx => groupPush m (proj tx) tx) m) a =
        match alGet m a with
        | some g => some (g ++ txs.filter (fun t => proj t = a))
        | none =>
          if txs.filter (fun t => proj t = a) = [] then none
          else some (txs.filter (fun t => proj t = a)) := by
  induction txs with
  | nil =>
    intro m a
    simp only [List.foldl_nil, List.filter_nil]
    cases alGet m a with
    | some g => simp
    | none => simp
  | cons tx rest ih =>
    intro m a
    simp only [List.foldl_cons]
    rw [ih, alGet_groupPush]
    by_cases hpa : proj tx = a
    · rw [if_pos hpa, List.filter_cons_of_pos (by simpa using hpa)]
      cases hg : alGet m a with
      | some g =>
        show some ((g ++ [tx]) ++ rest.filter (fun t => proj t = a)) =
          some (g ++ (tx :: rest.filter (fun t => proj t = a)))
        rw [List.append_assoc]
        rfl
      | none =>
        show some ([tx] ++ rest.filter (fun t => proj t = a)) =
          if (tx :: rest.filter (fun t => proj t = a)) = [] then none
          else some (tx :: rest.filter (fun t => proj t = a))
        rw [if_neg (by simp)]
        rfl
    · rw [if_neg hpa, List.filter_cons_of_neg (by simpa using hpa)]

theorem groupFold_keys_nodup (proj : Transaction → String) (txs : List Transaction) :
    ∀ m : List (String × List Transaction), (m.map Prod.fst).Nodup →
      ((txs.foldl (fun m tx => groupPush m (proj tx) tx) m).map Prod.fst).Nodup := by
  induction txs with
  | nil => intro m h; exact h
  | cons tx rest ih =>
    intro m h
    simp only [List.foldl_cons]
    exact ih _ (groupPush_keys_nodup _ _ _ h)

theorem groupByEnds_fst (txs : List Transaction) :
    ∀ m : List (String × List Transaction) × List (String × List Transaction),
      (txs.foldl (fun m tx =>
        (groupPush m.1 tx.receiver_id tx, groupPush m.2 tx.sender_id tx)) m).1 =
        txs.foldl (fun g tx => groupPush g tx.receiver_id tx) m.1 := by
  induction txs with
  | nil => intro m; rfl
  | cons tx rest ih =>
    intro m
    simp only [List.foldl_cons]
    exact ih _

theorem alGet_groupByEnds_fst (txs : List Transaction) (a : String) :
    alGet (groupByEnds txs).1 a =
      if txs.filter (fun t => t.receiver_id = a) = [] then none
      else some (txs.filter (fun t => t.receiver_id = a)) := by
  rw [groupByEnds, groupByEnds_fst]
  exact alGet_groupFold (fun t => t.receiver_id) txs [] a

theorem groupByEnds_fst_keys_nodup (txs : List Transaction) :
    (((groupByEnds txs).1).map Prod.fst).Nodup := by
  rw [groupByEnds, groupByEnds_fst]
  exact groupFold_keys_nodup (fun t => t.receiver_id) txs [] (by simp)

theorem foldl_fanStep_eq (ty : SmurfType) (getParty : Transaction → String)
    (gs : List (String × List Transaction)) :
    ∀ acc : List SmurfResult,
      gs.foldl (fanStep ty getParty) acc =
        acc ++ gs.filterMap (fun g =>
          (smurfScan getParty g.2).map (fun uniq => (⟨ty, g.1, uniq⟩ : SmurfResult))) := by
  induction gs with
  | nil => intro acc; simp
  | cons g rest ih =>
    intro acc
    simp only [List.foldl_cons]
    cases hsc : smurfScan getParty g.2 with
    | none =>
      have hstep : fanStep ty getParty acc g = acc := by
        rw [fanStep, hsc]
      rw [hstep, ih, List.filterMap_cons_none (by rw [hsc]; rfl)]
    | some u =>
      have hstep : fanStep ty getParty acc g = acc ++ [⟨ty, g.1, u⟩] := by
        rw [fanStep, hsc]
      rw [hstep, ih, List.filterMap_cons_some (by rw [hsc]; rfl), List.append_assoc]
      rfl

theorem detectSmurfing_eq (transactions : List Transaction) :
    detectSmurfing transactions =
      (groupByEnds transactions).1.filterMap (fun g =>
        (smurfScan (fun t => t.sender_id) g.2).map
          (fun uniq => (⟨SmurfType.fanIn, g.1, uniq⟩ : SmurfResult))) ++
      (groupByEnds transactions).2.filterMap (fun g =>
        (smurfScan (fun t => t.receiver_id) g.2).map
          (fun uniq => (⟨SmurfType.fanOut, g.1, uniq⟩ : SmurfResult))) := by
  rw [detectSmurfing]
  rw [foldl_fanStep_eq, foldl_fanStep_eq, List.nil_append, List.nil_append]

theorem filter_fanKey_filterMap (ty : SmurfType) (getParty : Transaction → String)
    (a : String) (gs : List (String × List Transaction)) :
    (gs.map Prod.fst).Nodup →
      ((gs.filterMap (fun g => (smurfScan getParty g.2).map
          (fun uniq => (⟨ty, g.1, uniq⟩ : SmurfResult)))).filter
        (fun r => r.type = ty ∧ r.account = a)).length =
      if ∃ g ∈ gs, g.1 = a ∧ (smurfScan getParty g.2).isSome = true then 1 else 0 := by
  induction gs with
  | nil => intro _; simp
  | cons g rest ih =>
    intro hnd
    simp only [List.map_cons, List.nodup_cons] at hnd
    obtain ⟨hgk, hnd'⟩ := hnd
    cases hsc : smurfScan getParty g.2 with
    | none =>
      rw [List.filterMap_cons_none (by rw [hsc]; rfl), ih hnd']
      have hcons : (∃ x ∈ rest, x.1 = a ∧ (smurfScan getParty x.2).isSome = true) ↔
          (∃ x ∈ g :: rest, x.1 = a ∧ (smurfScan getParty x.2).isSome = true) := by
        constructor
        · rintro ⟨x, hx, hxa, hxs⟩
          exact ⟨x, List.mem_cons_of_mem _ hx, hxa, hxs⟩
        · rintro ⟨x, hx, hxa, hxs⟩
          rcases List.mem_cons.mp hx with rfl | hx'
          · rw [hsc] at hxs; simp at hxs
          · exact ⟨x, hx', hxa, hxs⟩
      exact if_congr hcons rfl rfl
    | some u =>
      rw [List.filterMap_cons_some (by rw [hsc]; rfl)]
      by_cases hga : g.1 = a
      · rw [List.filter_cons_of_pos (by simp [hga]), List.length_cons]
        have hrest0 : ((rest.filterMap (fun g => (smurfScan getParty g.2).map
            (fun uniq => (⟨ty, g.1, uniq⟩ : SmurfResult)))).filter
            (fun r => r.type = ty ∧ r.account = a)).length = 0 := by
          rw [ih hnd', if_neg]
          rintro ⟨x, hx, hxa, _⟩
          exact hgk (by rw [hga]; exact List.mem_map.mpr ⟨x, hx, hxa⟩)
        rw [hrest0]
        rw [if_pos ⟨g, List.mem_cons_self g rest, hga, by rw [hsc]; rfl⟩]
      · rw [List.filter_cons_of_neg (by simp [hga]), ih hnd']
        have hcons : (∃ x ∈ rest, x.1 = a ∧ (smurfScan getParty x.2).isSome = true) ↔
            (∃ x ∈ g :: rest, x.1 = a ∧ (smurfScan getParty x.2).isSome = true) := by
          constructor
          · rintro ⟨x, hx, hxa, hxs⟩
            exact ⟨x, List.mem_cons_of_mem _ hx, hxa, hxs⟩
          · rintro ⟨x, hx, hxa, hxs⟩
            rcases List.mem_cons.mp hx with rfl | hx'
            · exact absurd hxa hga
            · exact ⟨x, hx', hxa, hxs⟩
        exact if_congr hcons rfl rfl

theorem filter_fanIn_fanOutPart (transactions : List Transaction) (a : String) :
    (((groupByEnds transactions).2.filterMap (fun g =>
        (smurfScan (fun t => t.receiver_id) g.2).map
          (fun uniq => (⟨SmurfType.fanOut, g.1, uniq⟩ : SmurfResult)))).filter
      (fun r => r.type = SmurfType.fanIn ∧ r.account = a)) = [] := by
  rw [List.filter_eq_nil_iff]
  intro r hr
  obtain ⟨g, _, hg⟩ := List.mem_filterMap.mp hr
  cases hsc : smurfScan (fun t => t.receiver_id) g.2 with
  | none => rw [hsc] at hg; simp at hg
  | some u =>
    rw [hsc] at hg
    replace hg : (⟨SmurfType.fanOut, g.1, u⟩ : SmurfResult) = r := by simpa using hg
    rw [← hg]
    simp

theorem fanIn_flag_iff (transactions : List Transaction) (account : String) :
    (∃ g ∈ (groupByEnds transactions).1, g.1 = account ∧
        (smurfScan (fun t => t.sender_id) g.2).isSome = true) ↔
      FanInSpec account transactions := by
  constructor
  · rintro ⟨g, hg, hga, hsome⟩
    have halg := mem_alGet _ g.1 g.2 (groupByEnds_fst_keys_nodup transactions) hg
    rw [alGet_groupByEnds_fst] at halg
    by_cases hf : transactions.filter (fun t => t.receiver_id = g.1) = []
    · rw [if_pos hf] at halg
      exact absurd halg (by simp)
    · rw [if_neg hf] at halg
      replace halg : transactions.filter (fun t => t.receiver_id = g.1) = g.2 := by
        simpa using halg
      rw [← hga, FanInSpec,
        show incomingTxs g.1 transactions =
          transactions.filter (fun t => t.receiver_id = g.1) from rfl, halg]
      exact (qualifies_iff_window g.2 (fun t => t.sender_id)).mp
        ((smurfScan_isSome_iff (fun t => t.sender_id) g.2).mp hsome)
  · intro hspec
    have hsome : (smurfScan (fun t => t.sender_id)
        (incomingTxs account transactions)).isSome = true := by
      apply (smurfScan_isSome_iff _ _).mpr
      apply (qualifies_iff_window _ _).mpr
      exact hspec
    have hne : incomingTxs account transactions ≠ [] := by
      intro h0
      rw [h0, show smurfScan (fun t => t.sender_id) ([] : List Transaction) = none
        from rfl] at hsome
      simp at hsome
    have halg : alGet (groupByEnds transactions).1 account =
        some (incomingTxs account transactions) := by
      rw [alGet_groupByEnds_fst, if_neg (by exact hne)]
      rfl
    exact ⟨(account, incomingTxs account transactions), alGet_mem _ _ _ halg, rfl, hsome⟩

/-- Claim C6: an account is fan-in-flagged by the smurfing detector iff
some window of its incoming transactions whose time span is at most 72
hours (inclusive: a span exactly equal to 72 hours stays in the window,
only a strictly greater span evicts the left pointer) contains at least
10 unique senders, it is never flagged with fewer than 10 unique senders
in every such window, and a qualifying account is flagged exactly once
for the fan-in direction. -/
theorem c6_fan_in_iff (transactions : List Transaction) (account : String) :
    (((detectSmurfing transactions).filter
        (fun r => r.type = SmurfType.fanIn ∧ r.account = account)).length = 1 ↔
      FanInSpec account transactions) ∧
    ((detectSmurfing transactions).filter
        (fun r => r.type = SmurfType.fanIn ∧ r.account = account)).length ≤ 1 := by
  have hcount : ((detectSmurfing transactions).filter
      (fun r => r.type = SmurfType.fanIn ∧ r.account = account)).length =
      if ∃ g ∈ (groupByEnds transactions).1, g.1 = account ∧
          (smurfScan (fun t => t.sender_id) g.2).isSome = true then 1 else 0 := by
    rw [detectSmurfing_eq, List.filter_append, List.length_append,
      filter_fanIn_fanOutPart, List.length_nil,
      filter_fanKey_filterMap SmurfType.fanIn (fun t => t.sender_id) account _
        (groupByEnds_fst_keys_nodup transactions)]
    simp
  refine ⟨?_, ?_⟩
  · rw [hcount]
    by_cases hex : ∃ g ∈ (groupByEnds transactions).1, g.1 = account ∧
        (smurfScan (fun t => t.sender_id) g.2).isSome = true
    · rw [if_pos hex]
      constructor
      · intro _
        exact (fanIn_flag_iff transactions account).mp hex
      · intro _
        rfl
    · rw [if_neg hex]
      constructor
      · intro h01
        exact absurd h01 (by omega)
      · intro hspec
        exact absurd ((fanIn_flag_iff transactions account).mpr hspec) hex
  · rw [hcount]
    split <;> omega

/-! ## Claim theorems settled by concrete evaluation, and C1/C9 -/

section

attribute [local semireducible] Rat.add Rat.mul Rat.inv Rat.sub Rat.ofScientific

/-- Claim C1, counterexample: on two 3-cycles sharing the account `A`,
the first ring whose qualifying structure contains `A` is the cycle ring
`RING_001`, yet `A`'s emitted `ring_id` is `RING_002` — the second cycle
ring overwrote the first assignment, so an account's ring id is not the
id of the first ring that contained it. -/
theorem c1_counterexample :
    ((runDetection twoCycTxs).suspicious_accounts.find? (fun a => a.account_id = "A")).map
        SuspiciousAccount.ring_id = some (some "RING_002") ∧
      (runDetection twoCycTxs).fraud_rings.map
          (fun r => (r.ring_id, r.member_accounts)) =
        [("RING_001", ["A", "B", "C"]), ("RING_002", ["A", "D", "E"])] := by
  constructor
  · decide
  · decide

/-- Claim C1, amended part that does hold: the smurfing pass never
reassigns a ring — an account holding a ring id after the cycle pass
holds the same ring id after the smurfing pass (ring overwrites happen
only in the cycle pass, between overlapping cycles, and in the
shell-chain pass). -/
theorem c1_smurf_pass_never_reassigns (transactions : List Transaction) (a rid : String)
    (h : alGet (stateAfterCycles transactions).ringMembership a = some rid) :
    alGet (stateAfterSmurfs transactions).ringMembership a = some rid := by
  rw [stateAfterSmurfs]
  exact smurf_foldl_preserves_ring _ _ a rid h

/-- Witness for `c1_smurf_pass_never_reassigns` at the 3-cycle input. -/
theorem c1_smurf_pass_never_reassigns_witness :
    alGet (stateAfterCycles cycTxs).ringMembership "A" = some "RING_001" ∧
      alGet (stateAfterSmurfs cycTxs).ringMembership "A" = some "RING_001" :=
  ⟨by decide, c1_smurf_pass_never_reassigns cycTxs "A" "RING_001" (by decide)⟩

/-- Claim C2: on the two-transaction input `A → B → C` the shell-chain
detector reports the chain `[A, B, C]` with only 3 accounts (2 hops),
although the claim (and the detector's own header comment, "chain ≥ 3
hops") requires at least 4 accounts.  The interior low-activity bound
does hold for the reported chain. -/
theorem c2_three_account_chain_reported :
    (detectShellNetworks (buildGraph chainTxs)).map ShellChainResult.chain =
      [["A", "B", "C"]] := by
  decide

/-- Claim C3: on the chain `A → B → C → D` with low-activity `B`, `C`
and high-activity `A`, `D`, the detector reports `[B, C, D]` and not
`[A, B, C, D]`, and `A` receives no score at all: the source's guard
`path.length > 0` is always true, so — contrary to its own comment
"OR we're at start" — a chain can never start at a high-activity
account. -/
theorem c3_chain_from_active_start_missed :
    (detectShellNetworks (buildGraph c3Txs)).map ShellChainResult.chain = [["B", "C", "D"]] ∧
      (runDetection c3Txs).suspicious_accounts.find? (fun a => a.account_id = "A") = none := by
  constructor
  · decide
  · decide

/-- Membership characterization of the emitted suspicious-account list:
exactly the kept score-map entries, rendered by `mkSuspicious`. -/
theorem mem_suspicious_iff (transactions : List Transaction) (sa : SuspiciousAccount) :
    sa ∈ (runDetection transactions).suspicious_accounts ↔
      ∃ kv ∈ (stateFinal transactions).scores,
        keepEntry (buildGraph transactions) transactions (stateFinal transactions).patterns kv ∧
        sa = mkSuspicious (stateFinal transactions).patterns
          (stateFinal transactions).ringMembership kv := by
  have hsusp : (runDetection transactions).suspicious_accounts =
      sortBySuspicion (buildSuspicious (buildGraph transactions) transactions
        (stateFinal transactions).scores (stateFinal transactions).patterns
        (stateFinal transactions).ringMembership) := rfl
  rw [hsusp, sortBySuspicion, mem_sortStable, buildSuspicious_eq]
  constructor
  · intro h
    obtain ⟨kv, hkv, hmk⟩ := List.mem_map.mp h
    rw [List.mem_filter] at hkv
    exact ⟨kv, hkv.1, of_decide_eq_true hkv.2, hmk.symm⟩
  · rintro ⟨kv, hkv, hkeep, rfl⟩
    exact List.mem_map.mpr ⟨kv, List.mem_filter.mpr ⟨hkv, decide_eq_true hkeep⟩, rfl⟩

/-- Claim C4: an account with positive accumulated score is suppressed
from the final suspicious list exactly when it carries no structural
(cycle / smurfing / shell) pattern tag and has at least 20 total
transactions spanning at least 30 days; structural tags always retain
the account, and a high-velocity tag alone does not protect it (the
structural test is the substring test of the source, which on the
engine's tag inventory matches exactly the cycle/smurfing/shell tags). -/
theorem c4_merchant_suppression_iff (transactions : List Transaction) (a : String) (s : Rat)
    (hs : alGet (stateFinal transactions).scores a = some s) (hpos : 0 < s) :
    a ∉ ((runDetection transactions).suspicious_accounts.map SuspiciousAccount.account_id) ↔
      (¬ hasMaliciousPattern ((alGet (stateFinal transactions).patterns a).getD []) = true ∧
        specMerchantLike a transactions) := by
  have hnd := (stateFinal_scoreInv transactions).1
  constructor
  · intro hnot
    by_contra hc
    apply hnot
    have hkeep : keepEntry (buildGraph transactions) transactions
        (stateFinal transactions).patterns (a, s) := by
      refine ⟨not_le.mpr hpos, ?_⟩
      intro hcon
      exact hc ⟨hcon.1, (isMerchantLike_iff_spec a transactions).mp hcon.2⟩
    have hmem : mkSuspicious (stateFinal transactions).patterns
        (stateFinal transactions).ringMembership (a, s) ∈
        (runDetection transactions).suspicious_accounts :=
      (mem_suspicious_iff transactions _).mpr ⟨(a, s), alGet_mem _ _ _ hs, hkeep, rfl⟩
    exact List.mem_map.mpr ⟨_, hmem, rfl⟩
  · rintro ⟨hmal, hspec⟩ hmemmap
    obtain ⟨sa, hsa, hacc⟩ := List.mem_map.mp hmemmap
    obtain ⟨kv, hkv, hkeep, rfl⟩ := (mem_suspicious_iff transactions sa).mp hsa
    obtain ⟨k1, v1⟩ := kv
    have hk1 : k1 = a := hacc
    subst hk1
    rw [keepEntry] at hkeep
    exact hkeep.2 ⟨hmal, (isMerchantLike_iff_spec k1 transactions).mpr hspec⟩

/-- Witness for `c4_merchant_suppression_iff` at the two-hop chain
input, account `B` with score 35. -/
theorem c4_merchant_suppression_iff_witness :
    (alGet (stateFinal chainTxs).scores "B" = some 35 ∧ (0 : Rat) < 35) ∧
      ("B" ∉ ((runDetection chainTxs).suspicious_accounts.map SuspiciousAccount.account_id) ↔
        (¬ hasMaliciousPattern ((alGet (stateFinal chainTxs).patterns "B").getD []) = true ∧
          specMerchantLike "B" chainTxs)) :=
  ⟨⟨by decide, by norm_num⟩,
   c4_merchant_suppression_iff chainTxs "B" 35 (by decide) (by norm_num)⟩

/-- Claim C10: every emitted suspicious account with a non-null ring id
is listed in the member accounts of a fraud ring in the output bearing
that ring id (every ring-membership assignment accompanies a ring whose
member list contains the assigned account, and the final risk update
preserves ids and member lists). -/
theorem c10_ring_id_member (transactions : List Transaction) (sa : SuspiciousAccount)
    (rid : String)
    (hmem : sa ∈ (runDetection transactions).suspicious_accounts)
    (hrid : sa.ring_id = some rid) :
    ∃ ring ∈ (runDetection transactions).fraud_rings,
      ring.ring_id = rid ∧ sa.account_id ∈ ring.member_accounts := by
  have hsusp : (runDetection transactions).suspicious_accounts =
      sortBySuspicion (buildSuspicious (buildGraph transactions) transactions
        (stateFinal transactions).scores (stateFinal transactions).patterns
        (stateFinal transactions).ringMembership) := rfl
  have hrings : (runDetection transactions).fraud_rings =
      (stateFinal transactions).fraudRings.map
        (updateRingRisk ((runDetection transactions).suspicious_accounts)) := rfl
  rw [hsusp, sortBySuspicion, mem_sortStable, buildSuspicious_eq] at hmem
  obtain ⟨kv, hkv, hmk⟩ := List.mem_map.mp hmem
  have hacc : sa.account_id = kv.1 := by rw [← hmk]; rfl
  have hring_id : sa.ring_id = alGet (stateFinal transactions).ringMembership kv.1 := by
    rw [← hmk]; rfl
  have hget : alGet (stateFinal transactions).ringMembership kv.1 = some rid := by
    rw [← hring_id]; exact hrid
  obtain ⟨ring, hringmem, hid, hamem⟩ := stateFinal_ringInv transactions kv.1 rid hget
  refine ⟨updateRingRisk ((runDetection transactions).suspicious_accounts) ring, ?_, ?_, ?_⟩
  · rw [hrings]
    exact List.mem_map.mpr ⟨ring, hringmem, rfl⟩
  · rw [(updateRingRisk_fields _ ring).1]
    exact hid
  · rw [(updateRingRisk_fields _ ring).2, hacc]
    exact hamem

/-- Witness for `c10_ring_id_member` at the two-hop chain input. -/
theorem c10_ring_id_member_witness :
    (⟨"B", 35, ["shell_intermediary"], some "RING_001"⟩ : SuspiciousAccount) ∈
        (runDetection chainTxs).suspicious_accounts ∧
      ∃ ring ∈ (runDetection chainTxs).fraud_rings,
        ring.ring_id = "RING_001" ∧
          (⟨"B", 35, ["shell_intermediary"], some "RING_001"⟩ :
            SuspiciousAccount).account_id ∈ ring.member_accounts :=
  ⟨by decide,
   c10_ring_id_member chainTxs ⟨"B", 35, ["shell_intermediary"], some "RING_001"⟩
     "RING_001" (by decide) rfl⟩

/-- Bounds on every emitted suspicion score, inherited from the capped
score map through the one-decimal rounding. -/
theorem emitted_score_bounds (transactions : List Transaction) (sa : SuspiciousAccount)
    (h : sa ∈ (runDetection transactions).suspicious_accounts) :
    0 ≤ sa.suspicion_score ∧ sa.suspicion_score ≤ 100 := by
  obtain ⟨kv, hkv, _, rfl⟩ := (mem_suspicious_iff transactions sa).mp h
  have hb := (stateFinal_scoreInv transactions).2 kv hkv
  exact ⟨round1_nonneg _ hb.1, round1_le_100 _ hb.2⟩

/-- Bounds on every ring member score: an absent member contributes 0,
a present one an emitted (hence bounded) suspicion score. -/
theorem memberScores_bounds (transactions : List Transaction) (ring : FraudRing) :
    ∀ x ∈ memberScoresOf (runDetection transactions).suspicious_accounts ring,
      0 ≤ x ∧ x ≤ 100 := by
  intro x hx
  rw [memberScoresOf] at hx
  obtain ⟨m, _, hxe⟩ := List.mem_map.mp hx
  cases hf : (runDetection transactions).suspicious_accounts.find?
      (fun a => a.account_id = m) with
  | none =>
    rw [hf] at hxe
    replace hxe : (0 : Rat) = x := hxe
    rw [← hxe]
    norm_num
  | some sa =>
    rw [hf] at hxe
    replace hxe : sa.suspicion_score = x := hxe
    rw [← hxe]
    exact emitted_score_bounds transactions sa (List.mem_of_find?_eq_some hf)

/-- Claim C5: every emitted suspicious account's `suspicion_score` equals
the sum of all score awards to that account over the four passes (45 per
cycle membership, 30 per smurfing flag, 35 per shell-intermediary role,
20 per shell-chain endpoint, 15 multi-pattern bonus, 10 velocity bonus)
clamped to `[0, 100]` and rounded to one decimal place; the unclamped sum
is non-negative, and the emitted score always lies in `[0, 100]` — the
iterated per-addition cap coincides with the clamp of the total because
every contribution is non-negative. -/
theorem c5_score_clamped_sum (transactions : List Transaction) (sa : SuspiciousAccount)
    (h : sa ∈ (runDetection transactions).suspicious_accounts) :
    sa.suspicion_score = round1 (min 100 (awardSum sa.account_id transactions)) ∧
    0 ≤ awardSum sa.account_id transactions ∧
    0 ≤ sa.suspicion_score ∧ sa.suspicion_score ≤ 100 := by
  obtain ⟨kv, hkv, _, rfl⟩ := (mem_suspicious_iff transactions sa).mp h
  have hb := (stateFinal_scoreInv transactions).2 kv hkv
  have hget : alGetD (stateFinal transactions).scores kv.1 0 = kv.2 := by
    rw [alGetD, mem_alGet _ kv.1 kv.2 (stateFinal_scoreInv transactions).1 hkv,
      Option.getD_some]
  have hclamp := stateFinal_score_clamped transactions kv.1
  rw [hget] at hclamp
  have hnn : 0 ≤ awardSum kv.1 transactions := by
    rw [awardSum]
    exact sumRat_nonneg_filterMap _ _ (scoreEvents_nonneg transactions)
  refine ⟨?_, hnn, round1_nonneg _ hb.1, round1_le_100 _ hb.2⟩
  show round1 kv.2 = round1 (min 100 (awardSum kv.1 transactions))
  rw [hclamp]

/-- Witness for claim C5: on the two-transaction chain `A→B→C` the account
`B` is emitted with score 35, which is the rounded clamp of its single
35-point shell-intermediary award. -/
theorem c5_score_clamped_sum_witness :
    (⟨"B", 35, ["shell_intermediary"], some "RING_001"⟩ : SuspiciousAccount) ∈
        (runDetection chainTxs).suspicious_accounts ∧
    ((⟨"B", 35, ["shell_intermediary"], some "RING_001"⟩ :
        SuspiciousAccount).suspicion_score =
      round1 (min 100 (awardSum "B" chainTxs)) ∧
     0 ≤ awardSum "B" chainTxs ∧
     (0 : Rat) ≤ 35 ∧ (35 : Rat) ≤ 100) :=
  ⟨by decide,
   c5_score_clamped_sum chainTxs ⟨"B", 35, ["shell_intermediary"], some "RING_001"⟩
     (by decide)⟩

/-- Claim C7: every emitted fraud ring's final risk score equals
`0.6 × max + 0.4 × mean` of its member accounts' final suspicion scores
(an absent member contributing 0), rounded to one decimal place; the cap
at 100 is satisfied — capping changes nothing because the value never
exceeds 100.  The computation reads the final suspicious-account list,
i.e. it happens after all account scores are final. -/
theorem c7_ring_risk_formula (transactions : List Transaction) (ring : FraudRing)
    (hring : ring ∈ (runDetection transactions).fraud_rings)
    (hne : 0 < ring.member_accounts.length) :
    ring.risk_score =
        round1 (listMaxRat (memberScoresOf
            (runDetection transactions).suspicious_accounts ring) * (6 / 10) +
          (sumRat (memberScoresOf (runDetection transactions).suspicious_accounts ring) /
            ((ring.member_accounts.length : Nat) : Rat)) * (4 / 10)) ∧
      ring.risk_score =
        min 100 (round1 (listMaxRat (memberScoresOf
            (runDetection transactions).suspicious_accounts ring) * (6 / 10) +
          (sumRat (memberScoresOf (runDetection transactions).suspicious_accounts ring) /
            ((ring.member_accounts.length : Nat) : Rat)) * (4 / 10))) := by
  have hrings : (runDetection transactions).fraud_rings =
      (stateFinal transactions).fraudRings.map
        (updateRingRisk ((runDetection transactions).suspicious_accounts)) := rfl
  rw [hrings] at hring
  obtain ⟨r0, _, rfl⟩ := List.mem_map.mp hring
  have hmembers : (updateRingRisk ((runDetection transactions).suspicious_accounts) r0).member_accounts =
      r0.member_accounts := (updateRingRisk_fields _ _).2
  have hms : memberScoresOf ((runDetection transactions).suspicious_accounts)
      (updateRingRisk ((runDetection transactions).suspicious_accounts) r0) =
      memberScoresOf ((runDetection transactions).suspicious_accounts) r0 := by
    rw [memberScoresOf, memberScoresOf, hmembers]
  have hlen : (memberScoresOf ((runDetection transactions).suspicious_accounts) r0).length =
      r0.member_accounts.length := by
    rw [memberScoresOf, List.length_map]
  rw [hmembers] at hne ⊢
  rw [hms]
  have hguard : 0 < (memberScoresOf ((runDetection transactions).suspicious_accounts) r0).length := by
    rw [hlen]; exact hne
  have hrisk : (updateRingRisk ((runDetection transactions).suspicious_accounts) r0).risk_score =
      round1 (listMaxRat (memberScoresOf ((runDetection transactions).suspicious_accounts) r0) * (6 / 10) +
        (sumRat (memberScoresOf ((runDetection transactions).suspicious_accounts) r0) /
          (((memberScoresOf ((runDetection transactions).suspicious_accounts) r0).length : Nat) : Rat)) * (4 / 10)) := by
    rw [updateRingRisk]
    dsimp only
    rw [if_pos hguard]
  rw [hlen] at hrisk
  have hbounds := memberScores_bounds transactions r0
  have hmax : listMaxRat (memberScoresOf ((runDetection transactions).suspicious_accounts) r0) ≤ 100 :=
    listMaxRat_le _ 100 (by norm_num) (fun x hx => (hbounds x hx).2)
  have hlpos : (0 : Rat) < ((r0.member_accounts.length : Nat) : Rat) := by
    exact_mod_cast hne
  have hsum : sumRat (memberScoresOf ((runDetection transactions).suspicious_accounts) r0) ≤
      100 * ((r0.member_accounts.length : Nat) : Rat) := by
    have := sumRat_le _ 100 (fun x hx => (hbounds x hx).2)
    rw [hlen] at this
    exact this
  have hmean : sumRat (memberScoresOf ((runDetection transactions).suspicious_accounts) r0) /
      ((r0.member_accounts.length : Nat) : Rat) ≤ 100 := by
    rw [div_le_iff₀ hlpos]
    linarith
  have hexpr : listMaxRat (memberScoresOf ((runDetection transactions).suspicious_accounts) r0) * (6 / 10) +
      (sumRat (memberScoresOf ((runDetection transactions).suspicious_accounts) r0) /
        ((r0.member_accounts.length : Nat) : Rat)) * (4 / 10) ≤ 100 := by
    linarith
  refine ⟨hrisk, ?_⟩
  rw [hrisk, min_eq_right (round1_le_100 _ hexpr)]

/-- Witness for `c7_ring_risk_formula` at the two-hop chain input:
member scores `[20, 35, 20]`, risk `0.6 × 35 + 0.4 × 25 = 31`. -/
theorem c7_ring_risk_formula_witness :
    (⟨"RING_001", ["A", "B", "C"], "shell_chain", 31⟩ : FraudRing) ∈
        (runDetection chainTxs).fraud_rings ∧
      ((⟨"RING_001", ["A", "B", "C"], "shell_chain", 31⟩ : FraudRing).risk_score =
          round1 (listMaxRat (memberScoresOf
              (runDetection chainTxs).suspicious_accounts
              ⟨"RING_001", ["A", "B", "C"], "shell_chain", 31⟩) * (6 / 10) +
            (sumRat (memberScoresOf (runDetection chainTxs).suspicious_accounts
              ⟨"RING_001", ["A", "B", "C"], "shell_chain", 31⟩) /
              (((⟨"RING_001", ["A", "B", "C"], "shell_chain", 31⟩ :
                FraudRing).member_accounts.length : Nat) : Rat)) * (4 / 10)) ∧
        (⟨"RING_001", ["A", "B", "C"], "shell_chain", 31⟩ : FraudRing).risk_score =
          min 100 (round1 (listMaxRat (memberScoresOf
              (runDetection chainTxs).suspicious_accounts
              ⟨"RING_001", ["A", "B", "C"], "shell_chain", 31⟩) * (6 / 10) +
            (sumRat (memberScoresOf (runDetection chainTxs).suspicious_accounts
              ⟨"RING_001", ["A", "B", "C"], "shell_chain", 31⟩) /
              (((⟨"RING_001", ["A", "B", "C"], "shell_chain", 31⟩ :
                FraudRing).member_accounts.length : Nat) : Rat)) * (4 / 10)))) :=
  ⟨by decide, c7_ring_risk_formula chainTxs ⟨"RING_001", ["A", "B", "C"], "shell_chain", 31⟩
    (by decide) (by decide)⟩

/-- Claim C8: every reported cycle has between 3 and 5 distinct
accounts, and no two distinct reported cycles are rotations of one
another (only the first occurrence of each canonical rotation's key is
retained by the dedup set). -/
theorem c8_cycle_bounds_rotation_dedup (transactions : List Transaction)
    (c1 c2 : List String) (k : Nat)
    (h1 : c1 ∈ (detectCycles (buildGraph transactions)).map CycleResult.cycle)
    (h2 : c2 ∈ (detectCycles (buildGraph transactions)).map CycleResult.cycle) :
    (3 ≤ c1.length ∧ c1.length ≤ 5 ∧ c1.Nodup) ∧ (c1 ≠ c2 → c2 ≠ c1.rotate k) := by
  have hinv := detectCycles_acc_inv (buildGraph transactions)
  obtain ⟨r1, hr1, hc1⟩ := List.mem_map.mp h1
  obtain ⟨r2, hr2, hc2⟩ := List.mem_map.mp h2
  have hb1 := hinv.1 r1 hr1
  rw [hc1] at hb1
  refine ⟨⟨hb1.1, hb1.2.1, hb1.2.2.1⟩, ?_⟩
  intro hne hrot
  have hne_nil : c1 ≠ [] := by
    intro hc
    rw [hc] at hb1
    simp at hb1
  have hkey : canonKey c2 = canonKey c1 := by
    rw [hrot]
    exact canonKey_rotate c1 k hb1.2.2.1 hne_nil
  have hne_r : r1 ≠ r2 := by
    intro he
    apply hne
    rw [← hc1, ← hc2, he]
  have hsymm : Symmetric (fun r1 r2 : CycleResult =>
      canonKey r1.cycle ≠ canonKey r2.cycle) := by
    intro x y h he
    exact h he.symm
  have hdiff := hinv.2.forall hsymm hr1 hr2 hne_r
  rw [hc1, hc2] at hdiff
  exact hdiff hkey.symm

/-- Witness for `c8_cycle_bounds_rotation_dedup` at the two-cycle
input, with the two reported cycles and rotation offset 1. -/
theorem c8_cycle_bounds_rotation_dedup_witness :
    (["A", "B", "C"] ∈ (detectCycles (buildGraph twoCycTxs)).map CycleResult.cycle ∧
      ["A", "D", "E"] ∈ (detectCycles (buildGraph twoCycTxs)).map CycleResult.cycle) ∧
      ((3 ≤ (["A", "B", "C"] : List String).length ∧
        (["A", "B", "C"] : List String).length ≤ 5 ∧
        (["A", "B", "C"] : List String).Nodup) ∧
       ((["A", "B", "C"] : List String) ≠ ["A", "D", "E"] →
        (["A", "D", "E"] : List String) ≠ (["A", "B", "C"] : List String).rotate 1)) :=
  ⟨⟨by decide, by decide⟩,
   c8_cycle_bounds_rotation_dedup twoCycTxs ["A", "B", "C"] ["A", "D", "E"] 1
     (by decide) (by decide)⟩

/-- Claim C9, counterexample: the parser performs no sign check on the
amount — a row with amount `-5` is emitted as a transaction (with no
per-row error), so not every parsed transaction has a non-negative
amount. -/
theorem c9_counterexample :
    ¬ ∀ tx ∈ (parseCSV negAmountCsv).transactions, 0 ≤ tx.amount := by
  intro h
  have hm : (⟨"T1", "A", "B", -5, 1704067200000⟩ : Transaction) ∈
      (parseCSV negAmountCsv).transactions := by decide
  have h5 := h _ hm
  norm_num at h5

/-- Claim C9, amended: the parser rejects rows with missing string
fields, unparseable amounts, and invalid timestamps, but never checks
the amount's sign; what it does guarantee for every emitted transaction
is non-empty transaction, sender, and receiver identifiers. -/
theorem c9_nonempty_ids (csvText : String) (tx : Transaction)
    (h : tx ∈ (parseCSV csvText).transactions) :
    tx.transaction_id ≠ "" ∧ tx.sender_id ≠ "" ∧ tx.receiver_id ≠ "" := by
  unfold parseCSV at h
  dsimp only at h
  split at h
  · simp at h
  · split at h
    · simp at h
    · exact parseRows_foldl_ids _ _ ([], []) (by simp) tx h

/-- Witness for `c9_nonempty_ids` at the concrete CSV input. -/
theorem c9_nonempty_ids_witness :
    (⟨"T1", "A", "B", -5, 1704067200000⟩ : Transaction) ∈
        (parseCSV negAmountCsv).transactions ∧
      ("T1" : String) ≠ "" ∧ ("A" : String) ≠ "" ∧ ("B" : String) ≠ "" :=
  ⟨by decide, c9_nonempty_ids negAmountCsv ⟨"T1", "A", "B", -5, 1704067200000⟩ (by decide)⟩

end

end MMD
